import Mathlib

/-!
Verification development for the guardini rate limiter.

The counter engine (the Lua script `overLimitCheck` executed atomically by
Redis against one hash key) is embedded as a pure function over an explicit
hash state.  The quota resolver / dispatcher (`Guardini.check`,
`isTokenAllowed`, `ipIsAllowed` in `src/index.ts`) is embedded as a pure
function parametrised by the behaviour of its collaborators (Redis get/set,
the plan provider, the script engine), returning the callback outcome
together with the ordered trace of store operations it performs.
-/

namespace Guardini

/-- One quota tier, as carried in the JSON payload `limits`:
`[duration, threshold, precision?]`. -/
structure Tier where
  duration : Nat
  threshold : Int
  precision : Option Nat
deriving DecidableEq, Repr

/-- A field of the per-key Redis hash used by the Lua script.
`count_key` is `duration .. ':' .. precision .. ':'` (the aggregate count),
`ts_key` is `count_key .. 'o'` (the last-trim timestamp), and bucket fields
are `count_key .. block_id`.  Since the numeric components contain no `:`,
these strings are in bijection with the constructors below. -/
inductive Field where
  | cnt (d p : Nat)
  | tsf (d p : Nat)
  | bucket (d p : Nat) (b : Int)
deriving DecidableEq, Repr

/-- The per-key Redis hash: a partial map from fields to integer values. -/
def Hash : Type := Field → Option Int

/-- The empty hash (fresh key). -/
def hempty : Hash := fun _ => none

/-- `HGET`. -/
def hget (h : Hash) (f : Field) : Option Int := h f

/-- `HSET`. -/
def hset (h : Hash) (f : Field) (v : Int) : Hash :=
  fun g => if g = f then some v else h g

/-- `HDEL` of a single field. -/
def hdel (h : Hash) (f : Field) : Hash :=
  fun g => if g = f then none else h g

/-- `HINCRBY`: increments a field (absent counts as 0) and returns the new
value together with the updated hash. -/
def hincrby (h : Hash) (f : Field) (v : Int) : Hash × Int :=
  ((h f).getD 0 + v) |> fun nv => (hset h f nv, nv)

/-- The state the script can observe and mutate for one key: the hash and
the TTL last applied by `EXPIRE` (if any). -/
structure RStore where
  hash : Hash
  ttl : Option Nat

/-- Effective precision: `precision = math.min(limit[3] or duration, duration)`. -/
def effPrec (t : Tier) : Nat := min (t.precision.getD t.duration) t.duration

/-- `blocks = math.ceil(duration / precision)` (faithful for positive
effective precision, which the well-formedness predicate below ensures). -/
def blocksOf (t : Tier) : Nat := (t.duration + effPrec t - 1) / effPrec t

/-- Well-formed tier: positive duration and, when supplied, positive
precision.  Under this predicate the Nat/Int arithmetic of this embedding
coincides with the Lua float arithmetic of the script. -/
def wfTier (t : Tier) : Bool := 1 ≤ t.duration && t.precision.all (fun p => 1 ≤ p)

/-- The `saved` record the script builds per tier in the verification pass. -/
structure Saved where
  d : Nat
  p : Nat
  blockId : Int
  trimBefore : Int
deriving DecidableEq, Repr

/-- The purely time/tier-dependent part of one loop iteration:
`block_id = math.floor(now / precision)`,
`trim_before = block_id - blocks + 1`. -/
def savedOf (t : Tier) (now : Nat) : Saved :=
  { d := t.duration
    p := effPrec t
    blockId := ((now / effPrec t : Nat) : Int)
    trimBefore := ((now / effPrec t : Nat) : Int) - (blocksOf t : Int) + 1 }

/-- The integers `a, a+1, ..., b-1` (the Lua loop `for x = a, b-1`). -/
def intRange (a b : Int) : List Int :=
  (List.range (b - a).toNat).map (fun k : Nat => a + (k : Int))

/-- The stored last-trim timestamp for a tier, defaulted as the script does:
`old_ts = old_ts and tonumber(old_ts) or saved.trim_before`. -/
def oldTsOf (h : Hash) (sv : Saved) : Int :=
  (h (Field.tsf sv.d sv.p)).getD sv.trimBefore

/-- The eviction step of one loop iteration: delete the stale buckets in
`[old_ts, min(trim_before, old_ts + blocks) - 1]` that are present, subtract
their total from the aggregate (via `HINCRBY`), and return the updated hash
together with the current aggregate value `tonumber(cur or '0')`. -/
def evictTier (h : Hash) (sv : Saved) (oldTs : Int) (blocks : Nat) : Hash × Int :=
  let trim := min sv.trimBefore (oldTs + (blocks : Int))
  let dele := (intRange oldTs trim).filter (fun b => (h (Field.bucket sv.d sv.p b)).isSome)
  let decr := (dele.map (fun b => (h (Field.bucket sv.d sv.p b)).getD 0)).sum
  if dele.isEmpty then (h, (h (Field.cnt sv.d sv.p)).getD 0)
  else
    let h1 := dele.foldl (fun acc b => hdel acc (Field.bucket sv.d sv.p b)) h
    hincrby h1 (Field.cnt sv.d sv.p) (-decr)

/-- One iteration of the verification pass for one tier.  Returns the
updated hash and `none` when the script would `return 1` at this tier
(clock regression or limit violation), `some saved` when the tier passes. -/
def checkTier (now : Nat) (w : Int) (h : Hash) (t : Tier) : Hash × Option Saved :=
  let sv := savedOf t now
  let oldTs := oldTsOf h sv
  if (now : Int) < oldTs then (h, none)
  else
    let hc := evictTier h sv oldTs (blocksOf t)
    if t.threshold < hc.2 + w then (hc.1, none) else (hc.1, some sv)

/-- The verification pass over the tier list, in order, short-circuiting on
the first violation (the partially evicted hash persists — Redis scripts do
not roll back the writes already issued). -/
def checkTiers (now : Nat) (w : Int) : Hash → List Tier → Hash × Option (List Saved)
  | h, [] => (h, some [])
  | h, t :: rest =>
    match checkTier now w h t with
    | (h1, none) => (h1, none)
    | (h1, some sv) =>
      match checkTiers now w h1 rest with
      | (h2, none) => (h2, none)
      | (h2, some svs) => (h2, some (sv :: svs))

/-- One iteration of the update pass: `HSET` the new last-trim timestamp,
`HINCRBY` the aggregate by `weight`, `HINCRBY` the current bucket by
`weight`. -/
def updateTier (w : Int) (h : Hash) (sv : Saved) : Hash :=
  let h1 := hset h (Field.tsf sv.d sv.p) sv.trimBefore
  let h2 := (hincrby h1 (Field.cnt sv.d sv.p) w).1
  ((hincrby h2 (Field.bucket sv.d sv.p sv.blockId) w)).1

/-- `longest_duration`, as accumulated by the loop (`limits[1][1] or 0`
seeded, then `math.max` with every duration; for a non-empty list this is
the maximum duration). -/
def longestDuration (tiers : List Tier) : Nat :=
  tiers.foldl (fun m t => max m t.duration) 0

/-- The whole Lua script `overLimitCheck` for one invocation.  Returns the
script result (`0` allowed, `1` denied) and the updated store, or an error:
on an empty `limits` array the very first line `limits[1][1] or 0` indexes
nil and the script aborts with a Lua error before touching the store. -/
def overLimitCheck (tiers : List Tier) (now : Nat) (w : Int) (s : RStore) :
    Except Unit (Int × RStore) :=
  match tiers with
  | [] => Except.error ()
  | _ :: _ =>
    match checkTiers now w s.hash tiers with
    | (h1, none) => Except.ok (1, { hash := h1, ttl := s.ttl })
    | (h1, some svs) =>
      let h2 := svs.foldl (updateTier w) h1
      let ld := longestDuration tiers
      Except.ok (0, { hash := h2, ttl := if 0 < ld then some ld else s.ttl })

/-- The JS wrapper around the script
(`script.run(..., (error, result) => callback(error, result > 0))`):
on a script error the callback receives the error together with
`denied = false` (`undefined > 0` is `false` in JS) and the store is
unchanged (the empty-limits error fires before any write). -/
def overLimitCheckJS (tiers : List Tier) (now : Nat) (w : Int) (s : RStore) :
    Option Unit × Bool × RStore :=
  match overLimitCheck tiers now w s with
  | Except.error e => (some e, false, s)
  | Except.ok (r, s1) => (none, decide (0 < r), s1)

/-- A sequence of invocations of the script with the given timestamps
(weight fixed), threading the store; collects the script results. -/
def runSeq (tiers : List Tier) (w : Int) : List Nat → RStore → Except Unit (List Int × RStore)
  | [], s => Except.ok ([], s)
  | x :: xs, s =>
    match overLimitCheck tiers x w s with
    | Except.error e => Except.error e
    | Except.ok (r, s1) =>
      match runSeq tiers w xs s1 with
      | Except.error e => Except.error e
      | Except.ok (rs, s2) => Except.ok (r :: rs, s2)

/-- The results of a call sequence against a fresh key. -/
def runSeqResults (tiers : List Tier) (w : Int) (times : List Nat) : Option (List Int) :=
  match runSeq tiers w times { hash := hempty, ttl := none } with
  | Except.ok (rs, _) => some rs
  | Except.error _ => none

/-! ## The quota resolver and dispatcher (`Guardini.check` in `src/index.ts`) -/

/-- A configured plan: `{limits: Tier[]}`. -/
structure Plan where
  limits : List Tier
deriving DecidableEq, Repr

/-- The options object.  `nspace` models the optional `namespace` property,
`cacheInvalidateTtl` the optional TTL property, `plans` the plan map (as an
association list keyed by plan name). -/
structure Options where
  nspace : Option String
  cacheInvalidateTtl : Option Int
  plans : List (String × Plan)
deriving DecidableEq, Repr

/-- `get namespace`: the property when present, `''` otherwise. -/
def nsStr (o : Options) : String := o.nspace.getD ""

/-- `get cacheTtl`: the property when present, 3600 otherwise. -/
def cacheTtl (o : Options) : Int := o.cacheInvalidateTtl.getD 3600

/-- `get shouldCacheTokens`: `cacheTtl > 0`. -/
def shouldCacheTokens (o : Options) : Bool := 0 < cacheTtl o

/-- `getPlanLimits`: the plan limits when the name is a key of `plans`,
`null` otherwise.  (In JS any array — even an empty one — is truthy, so
`some []` and `none` are distinguished exactly as the code's `if (limits)`
distinguishes them.) -/
def getPlanLimits (o : Options) (planName : String) : Option (List Tier) :=
  (o.plans.lookup planName).map Plan.limits

/-- `allowsGuests`: `'free' in this.options.plans`. -/
def allowsGuests (o : Options) : Bool := (o.plans.lookup "free").isSome

/-- Truthiness of a JS string-or-null value (null and `''` are falsy). -/
def truthy : Option String → Bool
  | none => false
  | some s => s ≠ ""

/-- One store operation issued by the resolver, in order. -/
inductive StoreOp where
  | get (k : String)
  | set (k : String) (v : String)
  | expire (k : String) (ttl : Int)
  | del (k : String)
  | script (key : String) (limits : List Tier) (timestamp : Nat) (weight : Int)
deriving DecidableEq, Repr

/-- What the resolver's callback finally receives: an error argument and a
denied argument, either possibly absent (`callback(error)` passes no second
argument). -/
structure Outcome where
  error : Option String
  denied : Option Bool
deriving DecidableEq, Repr

/-- The behaviour of the collaborators visible to the resolver during one
`check` call: the Redis string reads/writes and the script engine.  The
resolver is pure given this environment. -/
structure Env where
  redisGet : String → Except String (Option String)
  redisSet : String → String → Option String
  engineRun : String → List Tier → Nat → Int → Except String Int
  now : Nat

/-- The `lua.overLimitCheck` wrapper as seen from the resolver:
`callback(error, result > 0)`. -/
def runEngine (env : Env) (key : String) (limits : List Tier) : Outcome :=
  match env.engineRun key limits env.now 1 with
  | Except.error e => { error := some e, denied := some false }
  | Except.ok r => { error := none, denied := some (0 < r) }

/-- `ipIsAllowed`: deny outright when no `free` plan is configured,
otherwise run the engine on `rl:hit:<ip>` (no namespace prefix) with the
free plan's limits and weight 1. -/
def ipIsAllowed (o : Options) (env : Env) (ip : String) : Outcome × List StoreOp :=
  match o.plans.lookup "free" with
  | none => ({ error := none, denied := some true }, [])
  | some pl =>
    (runEngine env ("rl:hit:" ++ ip) pl.limits,
     [StoreOp.script ("rl:hit:" ++ ip) pl.limits env.now 1])

/-- The branch of `isTokenAllowed` taken on a truthy cached plan value. -/
def tokenCachedBranch (o : Options) (env : Env) (ip : String)
    (planKey checkKey : String) (plan : String) : Outcome × List StoreOp :=
  if plan = "none" then
    let g := ipIsAllowed o env ip
    (g.1, StoreOp.get planKey :: g.2)
  else
    match getPlanLimits o plan with
    | some limits =>
      (runEngine env checkKey limits,
       [StoreOp.get planKey, StoreOp.script checkKey limits env.now 1])
    | none =>
      let g := ipIsAllowed o env ip
      (g.1, StoreOp.get planKey :: StoreOp.del planKey :: g.2)

/-- The cache write performed after a successful plan lookup when caching is
enabled: `redis.set(key, plan || 'none', ...)` and, if the set succeeded,
`redis.expire(key, cacheTtl)`; a set failure is only logged. -/
def cacheWriteOps (o : Options) (env : Env) (planKey : String)
    (plan : Option String) : List StoreOp :=
  if shouldCacheTokens o then
    let v := if truthy plan then plan.getD "" else "none"
    StoreOp.set planKey v ::
      (match env.redisSet planKey v with
       | none => [StoreOp.expire planKey (cacheTtl o)]
       | some _ => [])
  else []

/-- The branch of `isTokenAllowed` taken when the plan provider answered
without error. -/
def tokenProvidedBranch (o : Options) (env : Env) (ip : String)
    (planKey checkKey : String) (plan : Option String) : Outcome × List StoreOp :=
  let cw := cacheWriteOps o env planKey plan
  if truthy plan then
    match getPlanLimits o (plan.getD "") with
    | none =>
      let g := ipIsAllowed o env ip
      (g.1, StoreOp.get planKey :: (cw ++ g.2))
    | some limits =>
      (runEngine env checkKey limits,
       StoreOp.get planKey :: (cw ++ [StoreOp.script checkKey limits env.now 1]))
  else
    let g := ipIsAllowed o env ip
    (g.1, StoreOp.get planKey :: (cw ++ g.2))

/-- `isTokenAllowed`. -/
def isTokenAllowed (o : Options) (env : Env)
    (provider : Option (String → Except String (Option String)))
    (token ip : String) : Outcome × List StoreOp :=
  let planKey := nsStr o ++ ":rl:" ++ token
  let checkKey := nsStr o ++ ":rl:hit:" ++ token
  match env.redisGet planKey with
  | Except.error e => ({ error := some e, denied := none }, [StoreOp.get planKey])
  | Except.ok cached =>
    if truthy cached then
      tokenCachedBranch o env ip planKey checkKey (cached.getD "")
    else
      match provider with
      | none =>
        let g := ipIsAllowed o env ip
        (g.1, StoreOp.get planKey :: g.2)
      | some pp =>
        match pp token with
        | Except.error e => ({ error := some e, denied := none }, [StoreOp.get planKey])
        | Except.ok plan => tokenProvidedBranch o env ip planKey checkKey plan

/-- Falsiness of the `token` argument (`!token`: null or empty string). -/
def jsFalsy : Option String → Bool
  | none => true
  | some s => s = ""

/-! ## Notions used by the statements about the counter engine -/

/-- The aggregate count of the `(duration, precision)` slot, absent read as 0. -/
def aggOf (h : Hash) (d p : Nat) : Int := (h (Field.cnt d p)).getD 0

/-- A bucket sub-count of the `(duration, precision)` slot, absent read as 0. -/
def bucketOf (h : Hash) (d p : Nat) (b : Int) : Int := (h (Field.bucket d p b)).getD 0

/-- The per-slot counter invariant: the aggregate equals the sum of the
(finitely many, non-evicted) bucket sub-counts. -/
def TierInv (h : Hash) (d p : Nat) : Prop :=
  ∃ S : Finset Int, (∀ b, b ∉ S → h (Field.bucket d p b) = none) ∧
    aggOf h d p = S.sum (fun b => bucketOf h d p b)

/-- The counter invariant for every slot of the hash. -/
def HashInv (h : Hash) : Prop := ∀ d p, TierInv h d p

/-- States of one Counter Record reachable from a fresh key by invocations
of the script with well-formed tiers. -/
inductive Reached : RStore → Prop where
  | init : Reached { hash := hempty, ttl := none }
  | step {s s1 : RStore} {tiers : List Tier} {now : Nat} {w : Int} {r : Int} :
      Reached s → tiers.all wfTier = true →
      overLimitCheck tiers now w s = Except.ok (r, s1) → Reached s1

/-- All stored values of the hash are non-negative. -/
def NonnegVals (h : Hash) : Prop := ∀ f v, h f = some v → 0 ≤ v

/-- The fields owned by the counters of slot `(d, p)`. -/
def ownsCB (d p : Nat) (g : Field) : Prop :=
  g = Field.cnt d p ∨ ∃ b, g = Field.bucket d p b

/-- Clock-regression test of one tier against a hash, exactly as the script
performs it (`old_ts > now` after defaulting). -/
def clockDeny (h : Hash) (t : Tier) (now : Nat) : Prop :=
  (now : Int) < oldTsOf h (savedOf t now)

/-- The post-eviction aggregate `tonumber(cur or '0')` of one tier. -/
def postEvictAgg (h : Hash) (t : Tier) (now : Nat) : Int :=
  (evictTier h (savedOf t now) (oldTsOf h (savedOf t now)) (blocksOf t)).2

/-- The effective `(duration, precision)` slots of the tiers are pairwise
distinct (no two tiers write to the same hash fields). -/
def slotsNodup (tiers : List Tier) : Prop :=
  (tiers.map (fun t => (t.duration, effPrec t))).Nodup

/-- The list of stale buckets one eviction deletes (`dele`). -/
def deleOf (h : Hash) (sv : Saved) (oldTs : Int) (blocks : Nat) : List Int :=
  (intRange oldTs (min sv.trimBefore (oldTs + (blocks : Int)))).filter
    (fun b => (h (Field.bucket sv.d sv.p b)).isSome)

/-- The total count removed by one eviction (`decr`). -/
def decrOf (h : Hash) (sv : Saved) (oldTs : Int) (blocks : Nat) : Int :=
  ((deleOf h sv oldTs blocks).map (fun b => (h (Field.bucket sv.d sv.p b)).getD 0)).sum

/-- Buckets of a hash never hold negative counts. -/
def NonnegBuckets (h : Hash) : Prop :=
  ∀ d p b v, h (Field.bucket d p b) = some v → 0 ≤ v

/-- The `(duration, precision)` slot a hash field belongs to. -/
def slotOf : Field → Nat × Nat
  | Field.cnt d p => (d, p)
  | Field.tsf d p => (d, p)
  | Field.bucket d p _ => (d, p)

/-- The script denies at this tier, in this hash, at this time: either the
clock-regression test fires, or the post-eviction aggregate plus the weight
exceeds the threshold. -/
def deniesAt (now : Nat) (w : Int) (h : Hash) (t : Tier) : Prop :=
  clockDeny h t now ∨ (¬ clockDeny h t now ∧ t.threshold < postEvictAgg h t now + w)

instance clockDenyDecidable (h : Hash) (t : Tier) (now : Nat) :
    Decidable (clockDeny h t now) :=
  inferInstanceAs (Decidable ((now : Int) < oldTsOf h (savedOf t now)))

instance deniesAtDecidable (now : Nat) (w : Int) (h : Hash) (t : Tier) :
    Decidable (deniesAt now w h t) := by
  unfold deniesAt
  infer_instance

/-- `Guardini.check`, the public entry point. -/
def check (o : Options) (env : Env)
    (provider : Option (String → Except String (Option String)))
    (token : Option String) (ip : String) : Outcome × List StoreOp :=
  if !allowsGuests o && jsFalsy token then
    ({ error := none, denied := some true }, [])
  else
    match token with
    | some t => if t = "" then ipIsAllowed o env ip else isTokenAllowed o env provider t ip
    | none => ipIsAllowed o env ip

/-! ## Resolver lemmas -/

theorem check_token_eq (o : Options) (env : Env)
    (provider : Option (String → Except String (Option String)))
    (t ip : String) (ht : t ≠ "") :
    check o env provider (some t) ip = isTokenAllowed o env provider t ip := by
  simp [check, jsFalsy, ht]

theorem isTokenAllowed_get_head (o : Options) (env : Env)
    (provider : Option (String → Except String (Option String)))
    (t ip : String) :
    ∃ rest, (isTokenAllowed o env provider t ip).2 =
      StoreOp.get (nsStr o ++ ":rl:" ++ t) :: rest := by
  simp only [isTokenAllowed]
  cases hr : env.redisGet (nsStr o ++ ":rl:" ++ t) with
  | error e => simp
  | ok cached =>
    by_cases hc : truthy cached = true
    · simp only [hc, if_true, tokenCachedBranch]
      by_cases hn : cached.getD "" = "none"
      · simp [hn]
      · simp only [if_neg hn]
        cases hl : getPlanLimits o (cached.getD "") with
        | some limits => simp
        | none => simp
    · simp only [Bool.not_eq_true] at hc
      simp only [hc, Bool.false_eq_true, if_false]
      cases provider with
      | none => simp
      | some pp =>
        cases hp : pp t with
        | error e => simp [hp]
        | ok plan =>
          simp only [hp, tokenProvidedBranch]
          by_cases ht2 : truthy plan = true
          · simp only [ht2, if_true]
            cases hl : getPlanLimits o (plan.getD "") with
            | none => simp
            | some limits => simp
          · simp only [Bool.not_eq_true] at ht2
            simp [ht2]

/-! ## Claim theorems: dispatcher / resolver -/

/-- Claim C6: if no `free` plan is configured and the token argument is
absent (null or empty), `check` invokes its callback with no error and
`denied = true`, performing no store access at all. -/
theorem c6_no_free_no_token_denies (o : Options) (env : Env)
    (provider : Option (String → Except String (Option String)))
    (token : Option String) (ip : String)
    (hfree : o.plans.lookup "free" = none) (htok : jsFalsy token = true) :
    check o env provider token ip = ({ error := none, denied := some true }, []) := by
  simp [check, allowsGuests, hfree, htok]

/-- Witness for C6 at a concrete configuration and environment. -/
theorem c6_no_free_no_token_denies_wit :
    check { nspace := none, cacheInvalidateTtl := none, plans := [] }
      { redisGet := fun _ => Except.ok none, redisSet := fun _ _ => none,
        engineRun := fun _ _ _ _ => Except.ok 0, now := 0 }
      none none "10.0.0.1" = ({ error := none, denied := some true }, []) :=
  c6_no_free_no_token_denies _ _ _ _ _ rfl rfl

/-- Claim C7: a cached plan name that no longer exists in the configuration
makes the token path delete the stale cache entry and delegate the decision
to the guest/IP path; the situation is not surfaced as an error (the
outcome is exactly the guest path's outcome). -/
theorem c7_stale_plan_cache_fallback (o : Options) (env : Env)
    (provider : Option (String → Except String (Option String)))
    (t ip : String) (plan : String) (ht : t ≠ "")
    (hread : env.redisGet (nsStr o ++ ":rl:" ++ t) = Except.ok (some plan))
    (hplan : plan ≠ "") (hsent : plan ≠ "none")
    (hgap : o.plans.lookup plan = none) :
    check o env provider (some t) ip =
      ((ipIsAllowed o env ip).1,
        StoreOp.get (nsStr o ++ ":rl:" ++ t) :: StoreOp.del (nsStr o ++ ":rl:" ++ t) ::
          (ipIsAllowed o env ip).2) := by
  rw [check_token_eq o env provider t ip ht]
  simp only [isTokenAllowed, hread]
  have htr : truthy (some plan) = true := by simp [truthy, hplan]
  simp [htr, tokenCachedBranch, hsent, getPlanLimits, hgap]

/-- Witness for C7: stale cached plan `gold` with no `gold` plan configured
and no `free` plan either, so the guest path denies. -/
theorem c7_stale_plan_cache_fallback_wit :
    check { nspace := none, cacheInvalidateTtl := none, plans := [] }
      { redisGet := fun _ => Except.ok (some "gold"), redisSet := fun _ _ => none,
        engineRun := fun _ _ _ _ => Except.ok 0, now := 3 }
      none (some "tok") "10.0.0.1" =
      (({ error := none, denied := some true } : Outcome),
       [StoreOp.get ":rl:tok", StoreOp.del ":rl:tok"]) :=
  c7_stale_plan_cache_fallback _ _ _ _ _ _ (by decide) rfl (by decide) (by decide) rfl

/-- Claim C8: on a Plan-Assignment Cache read error, or on an external plan
lookup error, the error is passed to the callback and the call aborts: the
trace is only the initial cache read, so no guest fallback, no counter
check and no increment happen. -/
theorem c8_store_and_lookup_errors_abort (o : Options) (env : Env)
    (provider : Option (String → Except String (Option String)))
    (t ip : String) (ht : t ≠ "") :
    (∀ e, env.redisGet (nsStr o ++ ":rl:" ++ t) = Except.error e →
      check o env provider (some t) ip =
        ({ error := some e, denied := none }, [StoreOp.get (nsStr o ++ ":rl:" ++ t)])) ∧
    (∀ pp cached e, provider = some pp →
      env.redisGet (nsStr o ++ ":rl:" ++ t) = Except.ok cached → truthy cached = false →
      pp t = Except.error e →
      check o env provider (some t) ip =
        ({ error := some e, denied := none }, [StoreOp.get (nsStr o ++ ":rl:" ++ t)])) := by
  constructor
  · intro e hr
    rw [check_token_eq o env provider t ip ht]
    simp [isTokenAllowed, hr]
  · intro pp cached e hpv hr hc hp
    rw [check_token_eq o env provider t ip ht]
    simp [isTokenAllowed, hr, hc, hpv, hp]

/-- Witness for C8: a concrete failing cache read is surfaced unchanged. -/
theorem c8_store_and_lookup_errors_abort_wit :
    check { nspace := none, cacheInvalidateTtl := none, plans := [] }
      { redisGet := fun _ => Except.error "boom", redisSet := fun _ _ => none,
        engineRun := fun _ _ _ _ => Except.ok 0, now := 3 }
      none (some "tok") "10.0.0.1" =
      (({ error := some "boom", denied := none } : Outcome), [StoreOp.get ":rl:tok"]) :=
  (c8_store_and_lookup_errors_abort _ _ _ _ _ (by decide)).1 "boom" rfl

/-- Claim C9: the guest counter key is exactly `rl:hit:<ip>` with no
namespace prefix, used with the `free` plan's tiers and weight 1; the token
path reads the cache at `<ns>:rl:<token>` and counts against
`<ns>:rl:hit:<token>`. -/
theorem c9_key_construction (o : Options) (env : Env)
    (provider : Option (String → Except String (Option String))) (ip : String) :
    (∀ pl, o.plans.lookup "free" = some pl →
      ipIsAllowed o env ip =
        (runEngine env ("rl:hit:" ++ ip) pl.limits,
         [StoreOp.script ("rl:hit:" ++ ip) pl.limits env.now 1])) ∧
    (∀ t, t ≠ "" → ∃ rest, (check o env provider (some t) ip).2 =
      StoreOp.get (nsStr o ++ ":rl:" ++ t) :: rest) ∧
    (∀ t plan limits, t ≠ "" →
      env.redisGet (nsStr o ++ ":rl:" ++ t) = Except.ok (some plan) →
      plan ≠ "" → plan ≠ "none" → getPlanLimits o plan = some limits →
      check o env provider (some t) ip =
        (runEngine env (nsStr o ++ ":rl:hit:" ++ t) limits,
         [StoreOp.get (nsStr o ++ ":rl:" ++ t),
          StoreOp.script (nsStr o ++ ":rl:hit:" ++ t) limits env.now 1])) := by
  refine ⟨?_, ?_, ?_⟩
  · intro pl hpl
    simp [ipIsAllowed, hpl]
  · intro t ht
    rw [check_token_eq o env provider t ip ht]
    exact isTokenAllowed_get_head o env provider t ip
  · intro t plan limits ht hread hplan hsent hlim
    rw [check_token_eq o env provider t ip ht]
    have htr : truthy (some plan) = true := by simp [truthy, hplan]
    simp [isTokenAllowed, hread, htr, tokenCachedBranch, hsent, hlim]

/-- Witness for C9 exercising the cached-plan conjunct at a concrete input. -/
theorem c9_key_construction_wit :
    check { nspace := some "app", cacheInvalidateTtl := none,
            plans := [("gold", { limits := [{ duration := 1, threshold := 5, precision := none }] })] }
      { redisGet := fun _ => Except.ok (some "gold"), redisSet := fun _ _ => none,
        engineRun := fun _ _ _ _ => Except.ok 0, now := 3 }
      none (some "tok") "10.0.0.1" =
      (({ error := none, denied := some false } : Outcome),
       [StoreOp.get "app:rl:tok",
        StoreOp.script "app:rl:hit:tok" [{ duration := 1, threshold := 5, precision := none }] 3 1]) :=
  (c9_key_construction _ _ _ _).2.2 "tok" "gold"
    [{ duration := 1, threshold := 5, precision := none }]
    (by decide) rfl (by decide) (by decide) rfl

/-- Counterexample for C10: with a real plan named `none` configured and the
external lookup returning `"none"`, the call is NOT treated as a guest: the
counter runs against the token key `:rl:hit:tok` with the `none` plan's
tiers (outcome allowed), while the guest path at the same configuration
denies outright (no `free` plan). -/
theorem c10_none_sentinel_cex :
    (check
      { nspace := none, cacheInvalidateTtl := none,
        plans := [("none", { limits := [{ duration := 1, threshold := 1, precision := none }] })] }
      { redisGet := fun _ => Except.ok none, redisSet := fun _ _ => none,
        engineRun := fun _ _ _ _ => Except.ok 0, now := 7 }
      (some fun _ => Except.ok (some "none")) (some "tok") "9.9.9.9") =
      (({ error := none, denied := some false } : Outcome),
       [StoreOp.get ":rl:tok", StoreOp.set ":rl:tok" "none", StoreOp.expire ":rl:tok" 3600,
        StoreOp.script ":rl:hit:tok" [{ duration := 1, threshold := 1, precision := none }] 7 1]) ∧
    (ipIsAllowed
      { nspace := none, cacheInvalidateTtl := none,
        plans := [("none", { limits := [{ duration := 1, threshold := 1, precision := none }] })] }
      { redisGet := fun _ => Except.ok none, redisSet := fun _ _ => none,
        engineRun := fun _ _ _ _ => Except.ok 0, now := 7 }
      "9.9.9.9") = (({ error := none, denied := some true } : Outcome), []) :=
  ⟨rfl, rfl⟩

/-- Claim C10 as amended: a CACHED `"none"` entry always routes to the
guest/IP path, even when a plan named `none` exists in the configuration
(a real plan named `none` is unreachable through the cache); an external
lookup answering `"none"` routes to the guest path only when no plan named
`none` is configured (the sentinel is still written to the cache first). -/
theorem c10_none_sentinel_amended (o : Options) (env : Env)
    (provider : Option (String → Except String (Option String)))
    (t ip : String) (ht : t ≠ "") :
    (env.redisGet (nsStr o ++ ":rl:" ++ t) = Except.ok (some "none") →
      check o env provider (some t) ip =
        ((ipIsAllowed o env ip).1,
         StoreOp.get (nsStr o ++ ":rl:" ++ t) :: (ipIsAllowed o env ip).2)) ∧
    (∀ pp cached, provider = some pp →
      env.redisGet (nsStr o ++ ":rl:" ++ t) = Except.ok cached → truthy cached = false →
      pp t = Except.ok (some "none") → o.plans.lookup "none" = none →
      check o env provider (some t) ip =
        ((ipIsAllowed o env ip).1,
         StoreOp.get (nsStr o ++ ":rl:" ++ t) ::
           (cacheWriteOps o env (nsStr o ++ ":rl:" ++ t) (some "none") ++
            (ipIsAllowed o env ip).2))) := by
  constructor
  · intro hread
    rw [check_token_eq o env provider t ip ht]
    simp [isTokenAllowed, hread, truthy, tokenCachedBranch]
  · intro pp cached hpv hread hc hp hmiss
    rw [check_token_eq o env provider t ip ht]
    simp only [isTokenAllowed, hread, hc, Bool.false_eq_true, if_false, hpv, hp]
    simp [tokenProvidedBranch, truthy, getPlanLimits, hmiss]

/-- Witness for the amended C10: a cached `"none"` routes to the guest path
even though a plan named `none` is configured. -/
theorem c10_none_sentinel_amended_wit :
    check
      { nspace := none, cacheInvalidateTtl := none,
        plans := [("none", { limits := [{ duration := 1, threshold := 1, precision := none }] })] }
      { redisGet := fun _ => Except.ok (some "none"), redisSet := fun _ _ => none,
        engineRun := fun _ _ _ _ => Except.ok 0, now := 7 }
      none (some "tok") "9.9.9.9" =
      (({ error := none, denied := some true } : Outcome), [StoreOp.get ":rl:tok"]) :=
  (c10_none_sentinel_amended _ _ _ _ _ (by decide)).1 rfl

/-- Counterexample for C4: with an empty tier list the script does not
"return allowed": it aborts with a Lua error (`limits[1][1]` indexes nil),
and the JS wrapper surfaces that error to the callback. -/
theorem c4_empty_tiers_cex :
    overLimitCheck [] 5 1 { hash := hempty, ttl := none } = Except.error () ∧
    (overLimitCheckJS [] 5 1 { hash := hempty, ttl := none }).1 ≠ none :=
  ⟨rfl, by decide⟩

/-- Claim C4 as amended: a call with an empty tier list always aborts with
a script error, which the wrapper surfaces to the callback alongside
`denied = false` (in JS `undefined > 0` is `false`); the store, in
particular its expiry, is untouched. -/
theorem c4_empty_tiers_amended (now : Nat) (w : Int) (s : RStore) :
    overLimitCheck [] now w s = Except.error () ∧
    overLimitCheckJS [] now w s = (some (), false, s) :=
  ⟨rfl, rfl⟩

/-! ## Counter-engine lemmas: hash primitives -/

theorem hset_apply (h : Hash) (f : Field) (v : Int) (g : Field) :
    hset h f v g = if g = f then some v else h g := rfl

theorem hset_ne (h : Hash) (f : Field) (v : Int) (g : Field) (hg : g ≠ f) :
    hset h f v g = h g := by simp [hset, hg]

theorem hdel_apply (h : Hash) (f : Field) (g : Field) :
    hdel h f g = if g = f then none else h g := rfl

theorem hdel_ne (h : Hash) (f : Field) (g : Field) (hg : g ≠ f) :
    hdel h f g = h g := by simp [hdel, hg]

theorem foldl_hdel_bucket_apply (d p : Nat) (dele : List Int) (h : Hash) (g : Field) :
    (dele.foldl (fun acc b => hdel acc (Field.bucket d p b)) h) g =
      if ∃ b ∈ dele, g = Field.bucket d p b then none else h g := by
  induction dele generalizing h with
  | nil => simp
  | cons a l ih =>
    simp only [List.foldl_cons, ih]
    by_cases hab : ∃ b ∈ l, g = Field.bucket d p b
    · simp [hab]
    · by_cases hga : g = Field.bucket d p a
      · simp [hab, hdel, hga]
      · simp only [hdel_ne _ _ _ hga]
        simp [hab, hga]

/-! ## Counter-engine lemmas: eviction -/

theorem evictTier_frame (h : Hash) (sv : Saved) (o : Int) (k : Nat) (g : Field)
    (hg : ¬ ownsCB sv.d sv.p g) : (evictTier h sv o k).1 g = h g := by
  have hgc : g ≠ Field.cnt sv.d sv.p := fun e => hg (Or.inl e)
  have hgb : ∀ b, g ≠ Field.bucket sv.d sv.p b := fun b e => hg (Or.inr ⟨b, e⟩)
  simp only [evictTier]
  split
  · rfl
  · simp only [hincrby]
    rw [hset_ne _ _ _ _ hgc, foldl_hdel_bucket_apply]
    have hne : ¬ ∃ b ∈ (intRange o (min sv.trimBefore (o + (k : Int)))).filter
        (fun b => (h (Field.bucket sv.d sv.p b)).isSome), g = Field.bucket sv.d sv.p b := by
      rintro ⟨b, _, rfl⟩
      exact hgb b rfl
    rw [if_neg hne]

theorem evictTier_ts (h : Hash) (sv : Saved) (o : Int) (k : Nat) (d p : Nat) :
    (evictTier h sv o k).1 (Field.tsf d p) = h (Field.tsf d p) := by
  apply evictTier_frame
  rintro (e | ⟨b, e⟩) <;> cases e

theorem mem_intRange (a c x : Int) : x ∈ intRange a c ↔ a ≤ x ∧ x < c := by
  simp only [intRange, List.mem_map, List.mem_range]
  constructor
  · rintro ⟨k, hk, rfl⟩
    omega
  · rintro ⟨h1, h2⟩
    exact ⟨(x - a).toNat, by omega, by omega⟩

theorem intRange_nodup (a c : Int) : (intRange a c).Nodup := by
  refine List.Nodup.map ?_ (List.nodup_range _)
  exact (add_right_injective a).comp (fun x y hxy => Nat.cast_injective hxy)

theorem deleOf_nodup (h : Hash) (sv : Saved) (o : Int) (k : Nat) :
    (deleOf h sv o k).Nodup := (intRange_nodup _ _).filter _

theorem mem_deleOf (h : Hash) (sv : Saved) (o : Int) (k : Nat) (b : Int) :
    b ∈ deleOf h sv o k ↔
      (o ≤ b ∧ b < min sv.trimBefore (o + (k : Int))) ∧
        (h (Field.bucket sv.d sv.p b)).isSome = true := by
  simp [deleOf, List.mem_filter, mem_intRange]

theorem evictTier_eq (h : Hash) (sv : Saved) (o : Int) (k : Nat) :
    evictTier h sv o k =
      (if (deleOf h sv o k).isEmpty then h
       else hset ((deleOf h sv o k).foldl (fun acc b => hdel acc (Field.bucket sv.d sv.p b)) h)
         (Field.cnt sv.d sv.p) (aggOf h sv.d sv.p - decrOf h sv o k),
       aggOf h sv.d sv.p - decrOf h sv o k) := by
  simp only [evictTier, deleOf, decrOf, hincrby, aggOf]
  split
  · rename_i hemp
    have he : (List.filter (fun b => (h (Field.bucket sv.d sv.p b)).isSome)
        (intRange o (min sv.trimBefore (o + (k : Int))))) = [] := List.isEmpty_iff.mp hemp
    rw [he]
    simp
  · have hcnt : ((List.filter (fun b => (h (Field.bucket sv.d sv.p b)).isSome)
        (intRange o (min sv.trimBefore (o + (k : Int))))).foldl
          (fun acc b => hdel acc (Field.bucket sv.d sv.p b)) h) (Field.cnt sv.d sv.p)
        = h (Field.cnt sv.d sv.p) := by
      rw [foldl_hdel_bucket_apply]
      have hne : ¬ ∃ b ∈ List.filter (fun b => (h (Field.bucket sv.d sv.p b)).isSome)
          (intRange o (min sv.trimBefore (o + (k : Int)))),
          (Field.cnt sv.d sv.p) = Field.bucket sv.d sv.p b := by
        rintro ⟨b, hb, hbe⟩
        cases hbe
      rw [if_neg hne]
    rw [hcnt, Int.sub_eq_add_neg]

theorem evictTier_hash_cnt (h : Hash) (sv : Saved) (o : Int) (k : Nat) :
    (evictTier h sv o k).1 (Field.cnt sv.d sv.p) =
      if (deleOf h sv o k).isEmpty then h (Field.cnt sv.d sv.p)
      else some (aggOf h sv.d sv.p - decrOf h sv o k) := by
  simp only [evictTier_eq]
  split
  · rfl
  · simp [hset]

theorem evictTier_hash_bucket (h : Hash) (sv : Saved) (o : Int) (k : Nat) (b : Int) :
    (evictTier h sv o k).1 (Field.bucket sv.d sv.p b) =
      if b ∈ deleOf h sv o k then none else h (Field.bucket sv.d sv.p b) := by
  simp only [evictTier_eq]
  split
  · rename_i hemp
    have he : deleOf h sv o k = [] := List.isEmpty_iff.mp hemp
    simp [he]
  · rw [hset_ne _ _ _ _ (by rintro ⟨⟩), foldl_hdel_bucket_apply]
    by_cases hb : b ∈ deleOf h sv o k
    · rw [if_pos hb, if_pos ⟨b, hb, rfl⟩]
    · rw [if_neg hb, if_neg ?_]
      rintro ⟨c, hc, hce⟩
      cases hce
      exact hb hc

theorem evictTier_cur (h : Hash) (sv : Saved) (o : Int) (k : Nat) :
    (evictTier h sv o k).2 = aggOf h sv.d sv.p - decrOf h sv o k := by
  rw [evictTier_eq]

theorem evictTier_other_slot (h : Hash) (sv : Saved) (o : Int) (k : Nat)
    (d p : Nat) (hne : ¬ (sv.d = d ∧ sv.p = p)) (g : Field) (hg : ownsCB d p g) :
    (evictTier h sv o k).1 g = h g := by
  apply evictTier_frame
  rcases hg with hg | ⟨b, hg⟩ <;> subst hg
  · rintro (e | ⟨b, e⟩)
    · cases e
      exact hne ⟨rfl, rfl⟩
    · cases e
  · rintro (e | ⟨c, e⟩)
    · cases e
    · cases e
      exact hne ⟨rfl, rfl⟩

/-! ## The counter invariant (aggregate = sum of live buckets) -/

theorem TierInv_hempty (d p : Nat) : TierInv hempty d p :=
  ⟨∅, fun _ _ => rfl, by simp [aggOf, hempty]⟩

theorem TierInv_congr {h h' : Hash} (d p : Nat)
    (hc : h' (Field.cnt d p) = h (Field.cnt d p))
    (hb : ∀ b, h' (Field.bucket d p b) = h (Field.bucket d p b)) :
    TierInv h d p → TierInv h' d p := by
  rintro ⟨S, hS1, hS2⟩
  refine ⟨S, fun b hbS => by rw [hb b]; exact hS1 b hbS, ?_⟩
  unfold aggOf bucketOf
  rw [hc]
  unfold aggOf bucketOf at hS2
  rw [hS2]
  exact Finset.sum_congr rfl fun b _ => by rw [hb b]

theorem TierInv_evict (h : Hash) (sv : Saved) (o : Int) (k : Nat) (d p : Nat)
    (hinv : TierInv h d p) : TierInv (evictTier h sv o k).1 d p := by
  by_cases hown : sv.d = d ∧ sv.p = p
  · obtain ⟨rfl, rfl⟩ := hown
    by_cases hemp : (deleOf h sv o k).isEmpty = true
    · have he1 : (evictTier h sv o k).1 = h := by
        simp only [evictTier_eq]
        rw [if_pos hemp]
      rw [he1]
      exact hinv
    · obtain ⟨S, hS1, hS2⟩ := hinv
      set D := deleOf h sv o k with hD
      set T := D.toFinset with hT
      have hTS : T ⊆ S := by
        intro b hbT
        by_contra hbS
        have h1 := hS1 b hbS
        have h2 := (mem_deleOf h sv o k b).mp (List.mem_toFinset.mp hbT)
        rw [h1] at h2
        simp at h2
      have hdecr : decrOf h sv o k = T.sum (fun b => bucketOf h sv.d sv.p b) := by
        rw [hT, List.sum_toFinset (fun b => bucketOf h sv.d sv.p b) (deleOf_nodup h sv o k)]
        rfl
      refine ⟨S, ?_, ?_⟩
      · intro b hbS
        rw [evictTier_hash_bucket]
        by_cases hbD : b ∈ D
        · rw [if_pos hbD]
        · rw [if_neg hbD]
          exact hS1 b hbS
      · have hagg : aggOf (evictTier h sv o k).1 sv.d sv.p =
            aggOf h sv.d sv.p - decrOf h sv o k := by
          unfold aggOf
          rw [evictTier_hash_cnt, if_neg hemp]
          rfl
        rw [hagg]
        have hb3 : ∀ b, bucketOf (evictTier h sv o k).1 sv.d sv.p b =
            if b ∈ T then 0 else bucketOf h sv.d sv.p b := by
          intro b
          unfold bucketOf
          rw [evictTier_hash_bucket]
          by_cases hbD : b ∈ D
          · rw [if_pos hbD, if_pos (List.mem_toFinset.mpr hbD)]
            rfl
          · rw [if_neg hbD, if_neg (fun hc => hbD (List.mem_toFinset.mp hc))]
        calc aggOf h sv.d sv.p - decrOf h sv o k
            = S.sum (fun b => bucketOf h sv.d sv.p b) -
                T.sum (fun b => bucketOf h sv.d sv.p b) := by rw [hS2, hdecr]
          _ = (S \ T).sum (fun b => bucketOf h sv.d sv.p b) := by
                rw [Finset.sum_sdiff_eq_sub hTS]
          _ = (S \ T).sum (fun b => bucketOf (evictTier h sv o k).1 sv.d sv.p b) := by
                refine Finset.sum_congr rfl fun b hb => ?_
                rw [hb3 b, if_neg (Finset.mem_sdiff.mp hb).2]
          _ = S.sum (fun b => bucketOf (evictTier h sv o k).1 sv.d sv.p b) := by
                refine Finset.sum_subset Finset.sdiff_subset fun b hbS hbnd => ?_
                rw [hb3 b, if_pos ?_]
                by_contra hbT
                exact hbnd (Finset.mem_sdiff.mpr ⟨hbS, hbT⟩)
  · exact TierInv_congr d p
      (evictTier_other_slot h sv o k d p hown _ (Or.inl rfl))
      (fun b => evictTier_other_slot h sv o k d p hown _ (Or.inr ⟨b, rfl⟩)) hinv

theorem TierInv_incr (h h' : Hash) (d p : Nat) (bId : Int) (w : Int)
    (hinv : TierInv h d p)
    (hcnt : h' (Field.cnt d p) = some (aggOf h d p + w))
    (hbId : h' (Field.bucket d p bId) = some (bucketOf h d p bId + w))
    (hb : ∀ b, b ≠ bId → h' (Field.bucket d p b) = h (Field.bucket d p b)) :
    TierInv h' d p := by
  obtain ⟨S, hS1, hS2⟩ := hinv
  refine ⟨insert bId S, ?_, ?_⟩
  · intro b hbS
    rw [hb b (fun e => hbS (e ▸ Finset.mem_insert_self bId S))]
    exact hS1 b (fun e => hbS (Finset.mem_insert_of_mem e))
  · have hf : ∀ b ∈ insert bId S, bucketOf h' d p b =
        bucketOf h d p b + (if b = bId then w else 0) := by
      intro b _
      by_cases hbb : b = bId
      · subst hbb
        unfold bucketOf
        rw [hbId]
        simp [bucketOf]
      · unfold bucketOf
        rw [hb b hbb, if_neg hbb]
        simp
    have hagg : aggOf h' d p = aggOf h d p + w := by
      unfold aggOf
      rw [hcnt]
      rfl
    rw [hagg, Finset.sum_congr rfl hf, Finset.sum_add_distrib]
    have hsum1 : (insert bId S).sum (fun b => bucketOf h d p b) =
        S.sum (fun b => bucketOf h d p b) := by
      by_cases hino : bId ∈ S
      · rw [Finset.insert_eq_self.mpr hino]
      · rw [Finset.sum_insert hino]
        have : bucketOf h d p bId = 0 := by
          unfold bucketOf
          rw [hS1 bId hino]
          rfl
        rw [this, zero_add]
    have hsum2 : (insert bId S).sum (fun b => if b = bId then w else 0) = w := by
      rw [Finset.sum_ite_eq' (insert bId S) bId (fun _ => w)]
      rw [if_pos (Finset.mem_insert_self bId S)]
    rw [hsum1, hsum2, hS2]

theorem TierInv_updateTier (w : Int) (h : Hash) (sv : Saved) (d p : Nat)
    (hinv : TierInv h d p) : TierInv (updateTier w h sv) d p := by
  have hts : ∀ dd pp vv (g : Field), ownsCB d p g →
      hset h (Field.tsf dd pp) vv g = h g := by
    intro dd pp vv g hg
    apply hset_ne
    rcases hg with e | ⟨b, e⟩ <;> subst e <;> rintro ⟨⟩
  have hinv1 : TierInv (hset h (Field.tsf sv.d sv.p) sv.trimBefore) d p :=
    TierInv_congr d p (hts _ _ _ _ (Or.inl rfl)) (fun b => hts _ _ _ _ (Or.inr ⟨b, rfl⟩)) hinv
  by_cases hown : sv.d = d ∧ sv.p = p
  · obtain ⟨rfl, rfl⟩ := hown
    set h1 := hset h (Field.tsf sv.d sv.p) sv.trimBefore with hh1
    refine TierInv_incr h1 (updateTier w h sv) sv.d sv.p sv.blockId w hinv1 ?_ ?_ ?_
    · simp only [updateTier, hincrby, hh1]
      rw [hset_ne _ _ _ _ (by rintro ⟨⟩), hset_apply, if_pos rfl]
      rfl
    · simp only [updateTier, hincrby, hh1]
      rw [hset_apply, if_pos rfl]
      unfold bucketOf
      rw [hset_ne _ _ _ _ (by rintro ⟨⟩), hset_ne _ _ _ _ (by rintro ⟨⟩)]
    · intro b hbb
      simp only [updateTier, hincrby, hh1]
      rw [hset_ne _ _ _ _ (by rintro e; cases e; exact hbb rfl),
        hset_ne _ _ _ _ (by rintro ⟨⟩)]
  · refine TierInv_congr d p ?_ ?_ hinv
    · simp only [updateTier, hincrby]
      rw [hset_ne _ _ _ _ (by rintro ⟨⟩),
        hset_ne _ _ _ _ (by rintro e; cases e; exact hown ⟨rfl, rfl⟩),
        hts _ _ _ _ (Or.inl rfl)]
    · intro b
      simp only [updateTier, hincrby]
      rw [hset_ne _ _ _ _ (by rintro e; cases e; exact hown ⟨rfl, rfl⟩),
        hset_ne _ _ _ _ (by rintro ⟨⟩),
        hts _ _ _ _ (Or.inr ⟨b, rfl⟩)]

theorem checkTier_hash (now : Nat) (w : Int) (h : Hash) (t : Tier) :
    (checkTier now w h t).1 = h ∨
    (checkTier now w h t).1 =
      (evictTier h (savedOf t now) (oldTsOf h (savedOf t now)) (blocksOf t)).1 := by
  simp only [checkTier]
  split
  · exact Or.inl rfl
  · split
    · exact Or.inr rfl
    · exact Or.inr rfl

theorem checkTiers_nil (now : Nat) (w : Int) (h : Hash) :
    checkTiers now w h [] = (h, some []) := rfl

theorem checkTiers_cons_none (now : Nat) (w : Int) (h : Hash) (t : Tier)
    (rest : List Tier) (h1 : Hash) (hct : checkTier now w h t = (h1, none)) :
    checkTiers now w h (t :: rest) = (h1, none) := by
  simp only [checkTiers, hct]

theorem checkTiers_cons_some (now : Nat) (w : Int) (h : Hash) (t : Tier)
    (rest : List Tier) (h1 : Hash) (sv : Saved)
    (hct : checkTier now w h t = (h1, some sv)) :
    checkTiers now w h (t :: rest) =
      ((checkTiers now w h1 rest).1,
       (checkTiers now w h1 rest).2.map (fun svs => sv :: svs)) := by
  simp only [checkTiers, hct]
  cases hcr : checkTiers now w h1 rest with
  | mk h2 or2 => cases or2 <;> simp

theorem TierInv_checkTier (now : Nat) (w : Int) (h : Hash) (t : Tier) (d p : Nat)
    (hinv : TierInv h d p) : TierInv (checkTier now w h t).1 d p := by
  rcases checkTier_hash now w h t with he | he <;> rw [he]
  · exact hinv
  · exact TierInv_evict _ _ _ _ _ _ hinv

theorem TierInv_checkTiers (now : Nat) (w : Int) :
    ∀ (l : List Tier) (h : Hash) (d p : Nat), TierInv h d p →
      TierInv (checkTiers now w h l).1 d p := by
  intro l
  induction l with
  | nil => intro h d p hi; exact hi
  | cons t rest ih =>
    intro h d p hi
    have htier := TierInv_checkTier now w h t d p hi
    cases hct : checkTier now w h t with
    | mk h1 osv =>
      rw [hct] at htier
      cases osv with
      | none =>
        rw [checkTiers_cons_none now w h t rest h1 hct]
        exact htier
      | some sv =>
        rw [checkTiers_cons_some now w h t rest h1 sv hct]
        exact ih h1 d p htier

theorem TierInv_updateTiers (w : Int) :
    ∀ (svs : List Saved) (h : Hash) (d p : Nat), TierInv h d p →
      TierInv (svs.foldl (updateTier w) h) d p := by
  intro svs
  induction svs with
  | nil => intro h d p hi; exact hi
  | cons sv rest ih =>
    intro h d p hi
    exact ih (updateTier w h sv) d p (TierInv_updateTier w h sv d p hi)

theorem HashInv_overLimitCheck (tiers : List Tier) (now : Nat) (w : Int)
    (s : RStore) (r : Int) (s1 : RStore)
    (hok : overLimitCheck tiers now w s = Except.ok (r, s1))
    (hinv : HashInv s.hash) : HashInv s1.hash := by
  cases tiers with
  | nil => cases hok
  | cons t rest =>
    simp only [overLimitCheck] at hok
    cases hcz : checkTiers now w s.hash (t :: rest) with
    | mk h1 or1 =>
      rw [hcz] at hok
      cases or1 with
      | none =>
        simp only [Except.ok.injEq, Prod.mk.injEq] at hok
        obtain ⟨-, rfl⟩ := hok
        intro d p
        have hi := TierInv_checkTiers now w (t :: rest) s.hash d p (hinv d p)
        rw [hcz] at hi
        exact hi
      | some svs =>
        simp only [Except.ok.injEq, Prod.mk.injEq] at hok
        obtain ⟨-, rfl⟩ := hok
        intro d p
        have hi := TierInv_checkTiers now w (t :: rest) s.hash d p (hinv d p)
        rw [hcz] at hi
        exact TierInv_updateTiers w svs h1 d p hi

/-- Claim C3: for every Counter Record state reachable by a sequence of
checkAndIncrement calls, every tier slot's stored aggregate count equals
the sum of that slot's live (non-evicted) bucket sub-counts, and every
invocation of the script — allowed or denied — preserves this invariant. -/
theorem c3_aggregate_invariant :
    (∀ s, Reached s → HashInv s.hash) ∧
    (∀ tiers now w s r s1, HashInv s.hash →
      overLimitCheck tiers now w s = Except.ok (r, s1) → HashInv s1.hash) := by
  constructor
  · intro s hs
    induction hs with
    | init => intro d p; exact TierInv_hempty d p
    | step hr hwf hok ih => exact HashInv_overLimitCheck _ _ _ _ _ _ hok ih
  · intro tiers now w s r s1 hinv hok
    exact HashInv_overLimitCheck _ _ _ _ _ _ hok hinv

/-- Witness for C3: the invariant holds at the freshly created record. -/
theorem c3_aggregate_invariant_wit : HashInv hempty :=
  c3_aggregate_invariant.1 { hash := hempty, ttl := none } Reached.init

theorem checkTier_ts (now : Nat) (w : Int) (h : Hash) (t : Tier) (d p : Nat) :
    (checkTier now w h t).1 (Field.tsf d p) = h (Field.tsf d p) := by
  rcases checkTier_hash now w h t with he | he <;> rw [he]
  exact evictTier_ts _ _ _ _ _ _

theorem checkTiers_ts (now : Nat) (w : Int) :
    ∀ (l : List Tier) (h : Hash) (d p : Nat),
      (checkTiers now w h l).1 (Field.tsf d p) = h (Field.tsf d p) := by
  intro l
  induction l with
  | nil => intro h d p; rfl
  | cons t rest ih =>
    intro h d p
    cases hct : checkTier now w h t with
    | mk h1 osv =>
      have h1ts := checkTier_ts now w h t d p
      rw [hct] at h1ts
      cases osv with
      | none =>
        rw [checkTiers_cons_none now w h t rest h1 hct]
        exact h1ts
      | some sv =>
        rw [checkTiers_cons_some now w h t rest h1 sv hct]
        rw [show (((checkTiers now w h1 rest).1,
          (checkTiers now w h1 rest).2.map (fun svs => sv :: svs)) :
            Hash × Option (List Saved)).1 = (checkTiers now w h1 rest).1 from rfl]
        rw [ih h1 d p]
        exact h1ts

theorem checkTier_frame (now : Nat) (w : Int) (h : Hash) (t : Tier) (g : Field)
    (hg : ¬ ownsCB t.duration (effPrec t) g) :
    (checkTier now w h t).1 g = h g := by
  rcases checkTier_hash now w h t with he | he <;> rw [he]
  exact evictTier_frame _ _ _ _ _ hg

theorem checkTiers_frame (now : Nat) (w : Int) :
    ∀ (l : List Tier) (h : Hash) (g : Field),
      (∀ t2 ∈ l, ¬ ownsCB t2.duration (effPrec t2) g) →
      (checkTiers now w h l).1 g = h g := by
  intro l
  induction l with
  | nil => intro h g _; rfl
  | cons t rest ih =>
    intro h g hg
    have h1f := checkTier_frame now w h t g (hg t (List.mem_cons_self t rest))
    cases hct : checkTier now w h t with
    | mk h1 osv =>
      rw [hct] at h1f
      cases osv with
      | none =>
        rw [checkTiers_cons_none now w h t rest h1 hct]
        exact h1f
      | some sv =>
        rw [checkTiers_cons_some now w h t rest h1 sv hct]
        rw [show (((checkTiers now w h1 rest).1,
          (checkTiers now w h1 rest).2.map (fun svs => sv :: svs)) :
            Hash × Option (List Saved)).1 = (checkTiers now w h1 rest).1 from rfl]
        rw [ih h1 g (fun t2 ht2 => hg t2 (List.mem_cons_of_mem t ht2))]
        exact h1f

theorem checkTier_clockDeny (now : Nat) (w : Int) (h : Hash) (t : Tier)
    (hcd : clockDeny h t now) : checkTier now w h t = (h, none) := by
  have hcd2 : ((now : Nat) : Int) < oldTsOf h (savedOf t now) := hcd
  simp only [checkTier]
  rw [if_pos hcd2]

theorem checkTiers_deny_of_ts (now : Nat) (w : Int) :
    ∀ (l : List Tier) (h : Hash) (i : Nat) (hi : i < l.length) (v : Int),
      h (Field.tsf (l.get ⟨i, hi⟩).duration (effPrec (l.get ⟨i, hi⟩))) = some v →
      (now : Int) < v →
      (checkTiers now w h l).2 = none ∧
      (∀ g : Field, (∀ t2 ∈ l.take i, ¬ ownsCB t2.duration (effPrec t2) g) →
        (checkTiers now w h l).1 g = h g) := by
  intro l
  induction l with
  | nil =>
    intro h i hi
    exact absurd hi (by simp)
  | cons t rest ih =>
    intro h i hi v hts hv
    cases i with
    | zero =>
      have hcd : clockDeny h t now := by
        show (now : Int) < oldTsOf h (savedOf t now)
        unfold oldTsOf
        have hdp : (savedOf t now).d = t.duration := rfl
        have hpp : (savedOf t now).p = effPrec t := rfl
        rw [hdp, hpp]
        rw [show ((t :: rest).get ⟨0, hi⟩) = t from rfl] at hts
        rw [hts]
        exact hv
      rw [checkTiers_cons_none now w h t rest h (checkTier_clockDeny now w h t hcd)]
      exact ⟨rfl, fun g _ => rfl⟩
    | succ j =>
      have hj : j < rest.length := by
        simp only [List.length_cons] at hi
        omega
      have hts2 : h (Field.tsf (rest.get ⟨j, hj⟩).duration
          (effPrec (rest.get ⟨j, hj⟩))) = some v := by
        rw [show ((t :: rest).get ⟨j + 1, hi⟩) = rest.get ⟨j, hj⟩ from rfl] at hts
        exact hts
      cases hct : checkTier now w h t with
      | mk h1 osv =>
        cases osv with
        | none =>
          rw [checkTiers_cons_none now w h t rest h1 hct]
          refine ⟨rfl, fun g hg => ?_⟩
          have hf := checkTier_frame now w h t g
            (hg t (by rw [List.take_succ_cons]; exact List.mem_cons_self t _))
          rw [hct] at hf
          exact hf
        | some sv =>
          have hts1 : h1 (Field.tsf (rest.get ⟨j, hj⟩).duration
              (effPrec (rest.get ⟨j, hj⟩))) = some v := by
            have hp := checkTier_ts now w h t (rest.get ⟨j, hj⟩).duration
              (effPrec (rest.get ⟨j, hj⟩))
            rw [hct] at hp
            rw [show ((h1, some sv) : Hash × Option Saved).1 = h1 from rfl] at hp
            rw [hp]
            exact hts2
          obtain ⟨hd, hframe⟩ := ih h1 j hj v hts1 hv
          rw [checkTiers_cons_some now w h t rest h1 sv hct]
          constructor
          · show ((checkTiers now w h1 rest).2.map (fun svs => sv :: svs)) = none
            rw [hd]
            rfl
          · intro g hg
            show (checkTiers now w h1 rest).1 g = h g
            rw [hframe g (fun t2 ht2 => hg t2
              (by rw [List.take_succ_cons]; exact List.mem_cons_of_mem t ht2))]
            have hf := checkTier_frame now w h t g
              (hg t (by rw [List.take_succ_cons]; exact List.mem_cons_self t _))
            rw [hct] at hf
            exact hf

/-- Claim C5: if some tier's stored last-trim timestamp is strictly greater
than the supplied current time, the whole call returns denied (script result
1) without raising an error; no last-trim timestamp field is written, the
record's expiry is untouched, and only counter fields of tiers strictly
before the offending tier (in list order) can have been written. -/
theorem c5_clock_regression_denies (tiers : List Tier) (now : Nat) (w : Int)
    (s : RStore) (i : Nat) (hi : i < tiers.length) (v : Int)
    (hts : s.hash (Field.tsf (tiers.get ⟨i, hi⟩).duration
      (effPrec (tiers.get ⟨i, hi⟩))) = some v)
    (hv : (now : Int) < v) :
    ∃ s1, overLimitCheck tiers now w s = Except.ok (1, s1) ∧
      s1.ttl = s.ttl ∧
      (∀ d p, s1.hash (Field.tsf d p) = s.hash (Field.tsf d p)) ∧
      (∀ g : Field, (∀ t2 ∈ tiers.take i, ¬ ownsCB t2.duration (effPrec t2) g) →
        s1.hash g = s.hash g) := by
  obtain ⟨hd, hframe⟩ := checkTiers_deny_of_ts now w tiers s.hash i hi v hts hv
  cases tiers with
  | nil => exact absurd hi (by simp)
  | cons t rest =>
    simp only [overLimitCheck]
    cases hcz : checkTiers now w s.hash (t :: rest) with
    | mk h1 or1 =>
      rw [hcz] at hd hframe
      have hor : or1 = none := hd
      subst hor
      refine ⟨{ hash := h1, ttl := s.ttl }, rfl, rfl, ?_, ?_⟩
      · intro d p
        have hp := checkTiers_ts now w (t :: rest) s.hash d p
        rw [hcz] at hp
        exact hp
      · intro g hg
        exact hframe g hg

/-- Witness for C5: a stored last-trim timestamp of 50 with current time 3
makes the call denied with no writes at all. -/
theorem c5_clock_regression_denies_wit :
    ∃ s1, overLimitCheck [{ duration := 10, threshold := 5, precision := none }] 3 1
        { hash := hset hempty (Field.tsf 10 10) 50, ttl := none } = Except.ok (1, s1) ∧
      s1.ttl = (none : Option Nat) ∧
      (∀ d p, s1.hash (Field.tsf d p) = hset hempty (Field.tsf 10 10) 50 (Field.tsf d p)) ∧
      (∀ g : Field,
        (∀ t2 ∈ (([{ duration := 10, threshold := 5, precision := none }] : List Tier)).take 0,
          ¬ ownsCB t2.duration (effPrec t2) g) →
        s1.hash g = hset hempty (Field.tsf 10 10) 50 g) :=
  c5_clock_regression_denies [{ duration := 10, threshold := 5, precision := none }] 3 1
    { hash := hset hempty (Field.tsf 10 10) 50, ttl := none } 0 (by decide) 50 rfl (by decide)

theorem checkTier_eq (now : Nat) (w : Int) (h : Hash) (t : Tier) :
    checkTier now w h t =
      if clockDeny h t now then (h, none)
      else ((evictTier h (savedOf t now) (oldTsOf h (savedOf t now)) (blocksOf t)).1,
        if t.threshold < postEvictAgg h t now + w then none else some (savedOf t now)) := by
  simp only [checkTier, postEvictAgg, clockDeny]
  split
  · rfl
  · split <;> rfl

theorem checkTier_none_iff (now : Nat) (w : Int) (h : Hash) (t : Tier) :
    (checkTier now w h t).2 = none ↔ deniesAt now w h t := by
  rw [checkTier_eq]
  unfold deniesAt
  by_cases hcd : clockDeny h t now
  · rw [if_pos hcd]
    simp [hcd]
  · rw [if_neg hcd]
    by_cases hth : t.threshold < postEvictAgg h t now + w
    · rw [if_pos hth]
      simp [hcd, hth]
    · rw [if_neg hth]
      simp [hcd, hth]

theorem checkTiers_append_none (now : Nat) (w : Int) :
    ∀ (l1 l2 : List Tier) (h : Hash), (checkTiers now w h l1).2 = none →
      checkTiers now w h (l1 ++ l2) = checkTiers now w h l1 := by
  intro l1
  induction l1 with
  | nil => intro l2 h hn; cases hn
  | cons t rest ih =>
    intro l2 h hn
    cases hct : checkTier now w h t with
    | mk h1 osv =>
      cases osv with
      | none =>
        rw [List.cons_append, checkTiers_cons_none now w h t (rest ++ l2) h1 hct,
          checkTiers_cons_none now w h t rest h1 hct]
      | some sv =>
        rw [checkTiers_cons_some now w h t rest h1 sv hct] at hn ⊢
        rw [List.cons_append, checkTiers_cons_some now w h t (rest ++ l2) h1 sv hct]
        have hn2 : (checkTiers now w h1 rest).2 = none := by
          by_contra hcon
          rcases Option.ne_none_iff_exists.mp hcon with ⟨x, hx⟩
          rw [show ((((checkTiers now w h1 rest).1,
            (checkTiers now w h1 rest).2.map (fun svs => sv :: svs)) :
              Hash × Option (List Saved))).2 =
            (checkTiers now w h1 rest).2.map (fun svs => sv :: svs) from rfl] at hn
          rw [← hx] at hn
          cases hn
        rw [ih l2 h1 hn2]

theorem checkTiers_append_some (now : Nat) (w : Int) :
    ∀ (l1 l2 : List Tier) (h h1 : Hash) (svs : List Saved),
      checkTiers now w h l1 = (h1, some svs) →
      checkTiers now w h (l1 ++ l2) =
        ((checkTiers now w h1 l2).1,
         (checkTiers now w h1 l2).2.map (fun svs2 => svs ++ svs2)) := by
  intro l1
  induction l1 with
  | nil =>
    intro l2 h h1 svs heq
    simp only [checkTiers_nil, Prod.mk.injEq, Option.some.injEq] at heq
    obtain ⟨rfl, rfl⟩ := heq
    rw [List.nil_append]
    cases hc2 : checkTiers now w h l2 with
    | mk h2 or2 => cases or2 <;> simp
  | cons t rest ih =>
    intro l2 h h1 svs heq
    cases hct : checkTier now w h t with
    | mk hm osv =>
      cases osv with
      | none =>
        rw [checkTiers_cons_none now w h t rest hm hct] at heq
        simp at heq
      | some sv =>
        rw [checkTiers_cons_some now w h t rest hm sv hct] at heq
        cases hcr : checkTiers now w hm rest with
        | mk h2 or2 =>
          rw [hcr] at heq
          cases or2 with
          | none => simp at heq
          | some svs2 =>
            have heq2 : h2 = h1 ∧ sv :: svs2 = svs := by simpa using heq
            obtain ⟨rfl, rfl⟩ := heq2
            rw [List.cons_append, checkTiers_cons_some now w h t (rest ++ l2) hm sv hct,
              ih l2 hm h2 svs2 hcr]
            cases hc2 : checkTiers now w h2 l2 with
            | mk h3 or3 => cases or3 <;> simp

theorem checkTiers_some_svs (now : Nat) (w : Int) :
    ∀ (l : List Tier) (h h1 : Hash) (svs : List Saved),
      checkTiers now w h l = (h1, some svs) →
      svs = l.map (fun t => savedOf t now) := by
  intro l
  induction l with
  | nil =>
    intro h h1 svs heq
    simp only [checkTiers_nil, Prod.mk.injEq, Option.some.injEq] at heq
    rw [← heq.2]
    rfl
  | cons t rest ih =>
    intro h h1 svs heq
    cases hct : checkTier now w h t with
    | mk hm osv =>
      cases osv with
      | none =>
        rw [checkTiers_cons_none now w h t rest hm hct] at heq
        simp at heq
      | some sv =>
        have hsv : sv = savedOf t now := by
          simp only [checkTier_eq] at hct
          split at hct
          · simp at hct
          · split at hct
            · simp at hct
            · simp only [Prod.mk.injEq, Option.some.injEq] at hct
              rw [← hct.2]
        rw [checkTiers_cons_some now w h t rest hm sv hct] at heq
        cases hcr : checkTiers now w hm rest with
        | mk h2 or2 =>
          rw [hcr] at heq
          cases or2 with
          | none => simp at heq
          | some svs2 =>
            have heq2 : h2 = h1 ∧ sv :: svs2 = svs := by simpa using heq
            rw [← heq2.2, List.map_cons, hsv, ih hm h2 svs2 hcr]

theorem checkTiers_none_iff (now : Nat) (w : Int) :
    ∀ (l : List Tier) (h : Hash),
      (checkTiers now w h l).2 = none ↔
      ∃ i, ∃ hi : i < l.length,
        ((checkTiers now w h (l.take i)).2.isSome = true) ∧
        deniesAt now w (checkTiers now w h (l.take i)).1 (l.get ⟨i, hi⟩) := by
  intro l
  induction l with
  | nil =>
    intro h
    constructor
    · intro hn
      cases hn
    · rintro ⟨i, hi, -, -⟩
      exact absurd hi (by simp)
  | cons t rest ih =>
    intro h
    cases hct : checkTier now w h t with
    | mk h1 osv =>
      cases osv with
      | none =>
        rw [checkTiers_cons_none now w h t rest h1 hct]
        constructor
        · intro _
          exact ⟨0, by simp, rfl, (checkTier_none_iff now w h t).mp (by rw [hct])⟩
        · intro _
          rfl
      | some sv =>
        rw [checkTiers_cons_some now w h t rest h1 sv hct]
        have hnd : ¬ deniesAt now w h t := by
          rw [← checkTier_none_iff now w]
          rw [hct]
          simp
        constructor
        · intro hn
          have hn2 : (checkTiers now w h1 rest).2 = none := by
            revert hn
            show ((checkTiers now w h1 rest).2.map (fun svs => sv :: svs)) = none → _
            cases (checkTiers now w h1 rest).2 <;> simp
          obtain ⟨j, hj, hpre, hden⟩ := (ih h1).mp hn2
          refine ⟨j + 1, by simp only [List.length_cons]; omega, ?_, ?_⟩
          · rw [List.take_succ_cons, checkTiers_cons_some now w h t (rest.take j) h1 sv hct]
            show ((checkTiers now w h1 (rest.take j)).2.map (fun svs => sv :: svs)).isSome = true
            cases hq : (checkTiers now w h1 (rest.take j)).2
            · rw [hq] at hpre
              cases hpre
            · rfl
          · rw [List.take_succ_cons, checkTiers_cons_some now w h t (rest.take j) h1 sv hct]
            exact hden
        · rintro ⟨i, hi, hpre, hden⟩
          cases i with
          | zero => exact absurd hden hnd
          | succ j =>
            have hj : j < rest.length := by
              simp only [List.length_cons] at hi
              omega
            rw [List.take_succ_cons, checkTiers_cons_some now w h t (rest.take j) h1 sv hct]
              at hpre hden
            have hpre2 : (checkTiers now w h1 (rest.take j)).2.isSome = true := by
              revert hpre
              show ((checkTiers now w h1 (rest.take j)).2.map (fun svs => sv :: svs)).isSome
                  = true → _
              cases (checkTiers now w h1 (rest.take j)).2 <;> simp
            have hn2 : (checkTiers now w h1 rest).2 = none :=
              (ih h1).mpr ⟨j, hj, hpre2, hden⟩
            show ((checkTiers now w h1 rest).2.map (fun svs => sv :: svs)) = none
            rw [hn2]
            rfl

theorem evict_mono (h : Hash) (sv : Saved) (o : Int) (k : Nat) (hnb : NonnegBuckets h) :
    NonnegBuckets (evictTier h sv o k).1 ∧
    (∀ d p, aggOf (evictTier h sv o k).1 d p ≤ aggOf h d p) ∧
    (∀ d p b, bucketOf (evictTier h sv o k).1 d p b ≤ bucketOf h d p b) := by
  have hdec : 0 ≤ decrOf h sv o k := by
    unfold decrOf
    apply List.sum_nonneg
    intro x hx
    simp only [List.mem_map] at hx
    obtain ⟨b, hb, rfl⟩ := hx
    cases ho : h (Field.bucket sv.d sv.p b) with
    | none => simp
    | some v =>
      have := hnb sv.d sv.p b v ho
      simp [this]
  refine ⟨?_, ?_, ?_⟩
  · intro d p b v hv
    by_cases hop : sv.d = d ∧ sv.p = p
    · obtain ⟨rfl, rfl⟩ := hop
      rw [evictTier_hash_bucket] at hv
      by_cases hbd : b ∈ deleOf h sv o k
      · rw [if_pos hbd] at hv
        cases hv
      · rw [if_neg hbd] at hv
        exact hnb sv.d sv.p b v hv
    · rw [evictTier_other_slot h sv o k d p hop _ (Or.inr ⟨b, rfl⟩)] at hv
      exact hnb d p b v hv
  · intro d p
    by_cases hop : sv.d = d ∧ sv.p = p
    · obtain ⟨rfl, rfl⟩ := hop
      unfold aggOf
      rw [evictTier_hash_cnt]
      by_cases hemp : (deleOf h sv o k).isEmpty = true
      · rw [if_pos hemp]
      · rw [if_neg hemp]
        show aggOf h sv.d sv.p - decrOf h sv o k ≤ (h (Field.cnt sv.d sv.p)).getD 0
        unfold aggOf
        omega
    · rw [show aggOf (evictTier h sv o k).1 d p = aggOf h d p from by
        unfold aggOf
        rw [evictTier_other_slot h sv o k d p hop _ (Or.inl rfl)]]
  · intro d p b
    by_cases hop : sv.d = d ∧ sv.p = p
    · obtain ⟨rfl, rfl⟩ := hop
      unfold bucketOf
      rw [evictTier_hash_bucket]
      by_cases hbd : b ∈ deleOf h sv o k
      · rw [if_pos hbd]
        have hsome := ((mem_deleOf h sv o k b).mp hbd).2
        rcases Option.isSome_iff_exists.mp hsome with ⟨v, hv⟩
        rw [hv]
        have := hnb sv.d sv.p b v hv
        simpa using this
      · rw [if_neg hbd]
    · rw [show bucketOf (evictTier h sv o k).1 d p b = bucketOf h d p b from by
        unfold bucketOf
        rw [evictTier_other_slot h sv o k d p hop _ (Or.inr ⟨b, rfl⟩)]]

theorem checkTier_mono (now : Nat) (w : Int) (h : Hash) (t : Tier)
    (hnb : NonnegBuckets h) :
    NonnegBuckets (checkTier now w h t).1 ∧
    (∀ d p, aggOf (checkTier now w h t).1 d p ≤ aggOf h d p) ∧
    (∀ d p b, bucketOf (checkTier now w h t).1 d p b ≤ bucketOf h d p b) := by
  rcases checkTier_hash now w h t with he | he <;> rw [he]
  · exact ⟨hnb, fun d p => le_refl _, fun d p b => le_refl _⟩
  · exact evict_mono h _ _ _ hnb

theorem checkTiers_mono (now : Nat) (w : Int) :
    ∀ (l : List Tier) (h : Hash), NonnegBuckets h →
      NonnegBuckets (checkTiers now w h l).1 ∧
      (∀ d p, aggOf (checkTiers now w h l).1 d p ≤ aggOf h d p) ∧
      (∀ d p b, bucketOf (checkTiers now w h l).1 d p b ≤ bucketOf h d p b) := by
  intro l
  induction l with
  | nil => intro h hnb; exact ⟨hnb, fun d p => le_refl _, fun d p b => le_refl _⟩
  | cons t rest ih =>
    intro h hnb
    obtain ⟨hnb1, hagg1, hbkt1⟩ := checkTier_mono now w h t hnb
    cases hct : checkTier now w h t with
    | mk h1 osv =>
      rw [hct] at hnb1 hagg1 hbkt1
      cases osv with
      | none =>
        rw [checkTiers_cons_none now w h t rest h1 hct]
        exact ⟨hnb1, hagg1, hbkt1⟩
      | some sv =>
        rw [checkTiers_cons_some now w h t rest h1 sv hct]
        obtain ⟨hnb2, hagg2, hbkt2⟩ := ih h1 hnb1
        exact ⟨hnb2, fun d p => le_trans (hagg2 d p) (hagg1 d p),
          fun d p b => le_trans (hbkt2 d p b) (hbkt1 d p b)⟩

theorem updateTier_frame (w : Int) (h : Hash) (sv : Saved) (g : Field)
    (hg : slotOf g ≠ (sv.d, sv.p)) : updateTier w h sv g = h g := by
  simp only [updateTier, hincrby]
  rw [hset_ne _ _ _ _ (fun e => hg (by rw [e]; rfl)),
    hset_ne _ _ _ _ (fun e => hg (by rw [e]; rfl)),
    hset_ne _ _ _ _ (fun e => hg (by rw [e]; rfl))]

theorem updateTiers_frame (w : Int) :
    ∀ (svs : List Saved) (h : Hash) (g : Field),
      (∀ sv ∈ svs, slotOf g ≠ (sv.d, sv.p)) →
      (svs.foldl (updateTier w) h) g = h g := by
  intro svs
  induction svs with
  | nil => intro h g _; rfl
  | cons sv rest ih =>
    intro h g hg
    rw [List.foldl_cons, ih (updateTier w h sv) g
      (fun sv2 h2 => hg sv2 (List.mem_cons_of_mem sv h2)),
      updateTier_frame w h sv g (hg sv (List.mem_cons_self sv rest))]

theorem updateTier_own (w : Int) (h : Hash) (sv : Saved) :
    updateTier w h sv (Field.cnt sv.d sv.p) = some (aggOf h sv.d sv.p + w) ∧
    updateTier w h sv (Field.bucket sv.d sv.p sv.blockId) =
      some (bucketOf h sv.d sv.p sv.blockId + w) ∧
    updateTier w h sv (Field.tsf sv.d sv.p) = some sv.trimBefore := by
  refine ⟨?_, ?_, ?_⟩
  · simp only [updateTier, hincrby]
    rw [hset_ne _ _ _ _ (by rintro ⟨⟩), hset_apply, if_pos rfl,
      hset_ne _ _ _ _ (by rintro ⟨⟩)]
    rfl
  · simp only [updateTier, hincrby]
    rw [hset_apply, if_pos rfl, hset_ne _ _ _ _ (by rintro ⟨⟩),
      hset_ne _ _ _ _ (by rintro ⟨⟩)]
    rfl
  · simp only [updateTier, hincrby]
    rw [hset_ne _ _ _ _ (by rintro ⟨⟩), hset_ne _ _ _ _ (by rintro ⟨⟩),
      hset_apply, if_pos rfl]

theorem updateTiers_fields (w : Int) :
    ∀ (svs : List Saved) (h : Hash) (sv : Saved), sv ∈ svs →
      (svs.map (fun x => (x.d, x.p))).Nodup →
      (svs.foldl (updateTier w) h) (Field.cnt sv.d sv.p) =
        some (aggOf h sv.d sv.p + w) ∧
      (svs.foldl (updateTier w) h) (Field.bucket sv.d sv.p sv.blockId) =
        some (bucketOf h sv.d sv.p sv.blockId + w) ∧
      (svs.foldl (updateTier w) h) (Field.tsf sv.d sv.p) = some sv.trimBefore := by
  intro svs
  induction svs with
  | nil =>
    intro h sv hmem
    cases hmem
  | cons sv0 rest ih =>
    intro h sv hmem hnd
    rw [List.map_cons, List.nodup_cons] at hnd
    rcases List.mem_cons.mp hmem with rfl | hmemr
    · have hrest : ∀ sv2 ∈ rest, (sv2.d, sv2.p) ≠ (sv.d, sv.p) := by
        intro sv2 h2 he
        exact hnd.1 (by rw [← he]; exact List.mem_map_of_mem _ h2)
      obtain ⟨hc, hb, ht⟩ := updateTier_own w h sv
      rw [List.foldl_cons,
        updateTiers_frame w rest (updateTier w h sv) _ (fun sv2 h2 => by
          rw [show slotOf (Field.cnt sv.d sv.p) = (sv.d, sv.p) from rfl]
          exact fun e => hrest sv2 h2 e.symm),
        updateTiers_frame w rest (updateTier w h sv) _ (fun sv2 h2 => by
          rw [show slotOf (Field.bucket sv.d sv.p sv.blockId) = (sv.d, sv.p) from rfl]
          exact fun e => hrest sv2 h2 e.symm),
        updateTiers_frame w rest (updateTier w h sv) _ (fun sv2 h2 => by
          rw [show slotOf (Field.tsf sv.d sv.p) = (sv.d, sv.p) from rfl]
          exact fun e => hrest sv2 h2 e.symm)]
      exact ⟨hc, hb, ht⟩
    · have hslot : (sv0.d, sv0.p) ≠ (sv.d, sv.p) := by
        intro he
        exact hnd.1 (by rw [he]; exact List.mem_map_of_mem _ hmemr)
      have hfr : ∀ g : Field, slotOf g = (sv.d, sv.p) → updateTier w h sv0 g = h g :=
        fun g hgs => updateTier_frame w h sv0 g (by rw [hgs]; exact fun e => hslot e.symm)
      obtain ⟨hc, hb, ht⟩ := ih (updateTier w h sv0) sv hmemr hnd.2
      unfold aggOf at hc
      unfold bucketOf at hb
      rw [hfr (Field.cnt sv.d sv.p) rfl] at hc
      rw [hfr (Field.bucket sv.d sv.p sv.blockId) rfl] at hb
      rw [List.foldl_cons]
      exact ⟨hc, hb, ht⟩

theorem overLimitCheck_denied_state (tiers : List Tier) (now : Nat) (w : Int)
    (s s1 : RStore) (hok : overLimitCheck tiers now w s = Except.ok (1, s1)) :
    s1.hash = (checkTiers now w s.hash tiers).1 ∧ s1.ttl = s.ttl ∧
    (checkTiers now w s.hash tiers).2 = none := by
  cases tiers with
  | nil => cases hok
  | cons t rest =>
    simp only [overLimitCheck] at hok
    cases hcz : checkTiers now w s.hash (t :: rest) with
    | mk h1 or1 =>
      rw [hcz] at hok
      cases or1 with
      | none =>
        simp only [Except.ok.injEq, Prod.mk.injEq] at hok
        obtain ⟨-, rfl⟩ := hok
        exact ⟨rfl, rfl, rfl⟩
      | some svs =>
        simp only [Except.ok.injEq, Prod.mk.injEq] at hok
        omega

theorem overLimitCheck_allowed_state (tiers : List Tier) (now : Nat) (w : Int)
    (s s1 : RStore) (hok : overLimitCheck tiers now w s = Except.ok (0, s1)) :
    ∃ h1 svs, checkTiers now w s.hash tiers = (h1, some svs) ∧
      s1.hash = svs.foldl (updateTier w) h1 ∧
      svs = tiers.map (fun t => savedOf t now) := by
  cases tiers with
  | nil => cases hok
  | cons t rest =>
    simp only [overLimitCheck] at hok
    cases hcz : checkTiers now w s.hash (t :: rest) with
    | mk h1 or1 =>
      rw [hcz] at hok
      cases or1 with
      | none =>
        simp only [Except.ok.injEq, Prod.mk.injEq] at hok
        omega
      | some svs =>
        simp only [Except.ok.injEq, Prod.mk.injEq] at hok
        obtain ⟨-, rfl⟩ := hok
        exact ⟨h1, svs, rfl, rfl, checkTiers_some_svs now w (t :: rest) s.hash h1 svs hcz⟩

theorem overLimitCheck_denied_iff (tiers : List Tier) (now : Nat) (w : Int)
    (s : RStore) (hne : tiers ≠ []) :
    (∃ s1, overLimitCheck tiers now w s = Except.ok (1, s1)) ↔
    (checkTiers now w s.hash tiers).2 = none := by
  constructor
  · rintro ⟨s1, hs1⟩
    exact (overLimitCheck_denied_state tiers now w s s1 hs1).2.2
  · intro hn
    cases tiers with
    | nil => exact absurd rfl hne
    | cons t rest =>
      simp only [overLimitCheck]
      cases hcz : checkTiers now w s.hash (t :: rest) with
      | mk h1 or1 =>
        rw [hcz] at hn
        have : or1 = none := hn
        subst this
        exact ⟨_, rfl⟩

theorem overLimitCheck_of_none (tiers : List Tier) (now : Nat) (w : Int) (s : RStore)
    (hne : tiers ≠ []) (hn : (checkTiers now w s.hash tiers).2 = none) :
    overLimitCheck tiers now w s =
      Except.ok (1, { hash := (checkTiers now w s.hash tiers).1, ttl := s.ttl }) := by
  cases tiers with
  | nil => exact absurd rfl hne
  | cons t rest =>
    simp only [overLimitCheck]
    cases hcz : checkTiers now w s.hash (t :: rest) with
    | mk h1 or1 =>
      rw [hcz] at hn
      have : or1 = none := hn
      subst this
      rfl

/-- Claim C2: per-call semantics across multiple tiers.  (1) The call is
denied exactly when, scanning tiers in list order with evictions applied as
the pass goes, some tier clock-regresses or its post-eviction aggregate plus
the weight exceeds its threshold.  (2) An allowed call increments the
aggregate and the current bucket of every tier (relative to the
post-eviction hash) and stores each tier's new last-trim timestamp.  (3) A
denied call increments nothing: with non-negatively stored buckets, no
aggregate or bucket sub-count grows.  (4) The pass short-circuits: a first
violation at index i makes the whole call equal — result and final store —
to the call on the first i+1 tiers alone, so tiers after the violating one
are neither evicted nor checked. -/
theorem c2_multi_tier_check (tiers : List Tier) (now : Nat) (w : Int) (s : RStore)
    (hne : tiers ≠ []) :
    ((∃ s1, overLimitCheck tiers now w s = Except.ok (1, s1)) ↔
      (∃ i, ∃ hi : i < tiers.length,
        ((checkTiers now w s.hash (tiers.take i)).2.isSome = true) ∧
        deniesAt now w (checkTiers now w s.hash (tiers.take i)).1 (tiers.get ⟨i, hi⟩))) ∧
    (∀ s1, overLimitCheck tiers now w s = Except.ok (0, s1) → slotsNodup tiers →
      ∀ t ∈ tiers,
        s1.hash (Field.cnt t.duration (effPrec t)) =
          some (aggOf (checkTiers now w s.hash tiers).1 t.duration (effPrec t) + w) ∧
        s1.hash (Field.bucket t.duration (effPrec t) (savedOf t now).blockId) =
          some (bucketOf (checkTiers now w s.hash tiers).1 t.duration (effPrec t)
            (savedOf t now).blockId + w) ∧
        s1.hash (Field.tsf t.duration (effPrec t)) = some (savedOf t now).trimBefore) ∧
    (∀ s1, overLimitCheck tiers now w s = Except.ok (1, s1) → NonnegBuckets s.hash →
      (∀ d p, aggOf s1.hash d p ≤ aggOf s.hash d p) ∧
      (∀ d p b, bucketOf s1.hash d p b ≤ bucketOf s.hash d p b)) ∧
    (∀ i, ∀ hi : i < tiers.length,
      ((checkTiers now w s.hash (tiers.take i)).2.isSome = true) →
      deniesAt now w (checkTiers now w s.hash (tiers.take i)).1 (tiers.get ⟨i, hi⟩) →
      overLimitCheck tiers now w s = overLimitCheck (tiers.take (i + 1)) now w s) := by
  refine ⟨?_, ?_, ?_, ?_⟩
  · rw [overLimitCheck_denied_iff tiers now w s hne]
    exact checkTiers_none_iff now w tiers s.hash
  · intro s1 hok hnd t ht
    obtain ⟨h1, svs, hcz, hs1, hsvs⟩ := overLimitCheck_allowed_state tiers now w s s1 hok
    subst hsvs
    have hmem : savedOf t now ∈ tiers.map (fun t2 => savedOf t2 now) :=
      List.mem_map_of_mem _ ht
    have hnd2 : ((tiers.map (fun t2 => savedOf t2 now)).map
        (fun x => (x.d, x.p))).Nodup := by
      rw [List.map_map]
      exact hnd
    obtain ⟨hc, hb, hts⟩ := updateTiers_fields w (tiers.map (fun t2 => savedOf t2 now))
      h1 (savedOf t now) hmem hnd2
    rw [hs1, hcz]
    exact ⟨hc, hb, hts⟩
  · intro s1 hok hnb
    obtain ⟨hh, -, -⟩ := overLimitCheck_denied_state tiers now w s s1 hok
    obtain ⟨-, hagg, hbkt⟩ := checkTiers_mono now w tiers s.hash hnb
    rw [hh]
    exact ⟨hagg, hbkt⟩
  · intro i hi hpre hden
    rcases Option.isSome_iff_exists.mp hpre with ⟨svsp, hsvsp⟩
    have hczp : checkTiers now w s.hash (tiers.take i) =
        ((checkTiers now w s.hash (tiers.take i)).1, some svsp) := by
      rw [← hsvsp]
    have htk : tiers.take (i + 1) = tiers.take i ++ [tiers.get ⟨i, hi⟩] := by
      have h2 := (List.take_concat_get tiers i hi).symm
      rwa [List.concat_eq_append] at h2
    have hdentier : (checkTier now w (checkTiers now w s.hash (tiers.take i)).1
        (tiers.get ⟨i, hi⟩)).2 = none := (checkTier_none_iff _ _ _ _).mpr hden
    have hstep : (checkTiers now w s.hash (tiers.take (i + 1))).2 = none := by
      rw [htk, checkTiers_append_some now w (tiers.take i) [tiers.get ⟨i, hi⟩]
        s.hash _ svsp hczp]
      cases hct : checkTier now w (checkTiers now w s.hash (tiers.take i)).1
          (tiers.get ⟨i, hi⟩) with
      | mk hx ox =>
        rw [hct] at hdentier
        have hox : ox = none := hdentier
        subst hox
        rw [show checkTiers now w (checkTiers now w s.hash (tiers.take i)).1
            [tiers.get ⟨i, hi⟩] = (hx, none) from
          checkTiers_cons_none now w _ _ [] hx hct]
        rfl
    have hfull : checkTiers now w s.hash tiers =
        checkTiers now w s.hash (tiers.take (i + 1)) := by
      conv_lhs => rw [← List.take_append_drop (i + 1) tiers]
      exact checkTiers_append_none now w (tiers.take (i + 1)) (tiers.drop (i + 1))
        s.hash hstep
    have hne2 : tiers.take (i + 1) ≠ [] := by
      intro he
      have hlen := congrArg List.length he
      simp only [List.length_take, List.length_nil] at hlen
      omega
    have hfn : (checkTiers now w s.hash tiers).2 = none := by
      rw [hfull]
      exact hstep
    rw [overLimitCheck_of_none tiers now w s hne hfn,
      overLimitCheck_of_none (tiers.take (i + 1)) now w s hne2 hstep, hfull]

/-- Witness for C2 at a concrete denying call: a tier with threshold 0
denies the very first weight-1 call, and a violating index exists. -/
theorem c2_multi_tier_check_wit :
    ∃ i, ∃ hi : i <
      ([{ duration := 1, threshold := 0, precision := none }] : List Tier).length,
      ((checkTiers 0 1 hempty
        (([{ duration := 1, threshold := 0, precision := none }] : List Tier).take i)).2.isSome
          = true) ∧
      deniesAt 0 1 (checkTiers 0 1 hempty
        (([{ duration := 1, threshold := 0, precision := none }] : List Tier).take i)).1
        (([{ duration := 1, threshold := 0, precision := none }] : List Tier).get ⟨i, hi⟩) :=
  (c2_multi_tier_check [{ duration := 1, threshold := 0, precision := none }] 0 1
      { hash := hempty, ttl := none } (by decide)).1.mp
    ⟨{ hash := hempty, ttl := none }, rfl⟩

theorem effPrec_pos (t : Tier) (hwf : wfTier t = true) : 1 ≤ effPrec t := by
  unfold wfTier at hwf
  rw [Bool.and_eq_true] at hwf
  have hd : 1 ≤ t.duration := by
    have := hwf.1
    simpa using this
  unfold effPrec
  cases hp : t.precision with
  | none => simpa using hd
  | some p0 =>
    have := hwf.2
    rw [hp] at this
    simp only [Option.all_some] at this
    have hp0 : 1 ≤ p0 := by simpa using this
    simp only [Option.getD_some]
    omega

theorem duration_pos (t : Tier) (hwf : wfTier t = true) : 1 ≤ t.duration := by
  unfold wfTier at hwf
  rw [Bool.and_eq_true] at hwf
  simpa using hwf.1

theorem effPrec_le_duration (t : Tier) : effPrec t ≤ t.duration := min_le_right _ _

theorem blocksOf_of_dvd (t : Tier) (hp : 1 ≤ effPrec t)
    (hdvd : effPrec t ∣ t.duration) (hd : 1 ≤ t.duration) :
    blocksOf t = t.duration / effPrec t := by
  obtain ⟨m, hm⟩ := hdvd
  unfold blocksOf
  rw [hm]
  have hm1 : 1 ≤ m := by
    by_contra hm0
    push_neg at hm0
    have : m = 0 := by omega
    rw [this, Nat.mul_zero] at hm
    omega
  have he : effPrec t * m + effPrec t - 1 = (effPrec t - 1) + effPrec t * m := by omega
  rw [he, Nat.add_mul_div_left _ _ (by omega : 0 < effPrec t),
    Nat.div_eq_of_lt (by omega), Nat.mul_div_cancel_left _ (by omega : 0 < effPrec t)]
  omega

theorem window_block_bounds (d p k x : Nat) (hp : 1 ≤ p) (hdvd : p ∣ d) (hd : 1 ≤ d)
    (hx1 : k * d ≤ x) (hx2 : x < (k + 1) * d) :
    k * d / p ≤ x / p ∧ x / p + 1 ≤ k * d / p + d / p := by
  obtain ⟨m, rfl⟩ := hdvd
  have hm1 : 1 ≤ m := by
    rcases Nat.eq_zero_or_pos m with hm0 | hm0
    · rw [hm0, Nat.mul_zero] at hd
      omega
    · omega
  refine ⟨Nat.div_le_div_right hx1, ?_⟩
  have hx3 : x ≤ k * (p * m) + p * m - 1 := by
    have : (k + 1) * (p * m) = k * (p * m) + p * m := by ring
    omega
  have h1 : x / p ≤ (k * (p * m) + p * m - 1) / p := Nat.div_le_div_right hx3
  have he : k * (p * m) + p * m - 1 = ((p - 1) + p * (m - 1)) + p * (k * m) := by
    have hpm : p * m = p + p * (m - 1) := by
      have hm2 : m = 1 + (m - 1) := by omega
      calc p * m = p * (1 + (m - 1)) := by rw [← hm2]
        _ = p + p * (m - 1) := by ring
    have hk : k * (p * m) = p * (k * m) := by ring
    omega
  have h2 : (k * (p * m) + p * m - 1) / p = (m - 1) + k * m := by
    rw [he, Nat.add_mul_div_left _ _ (by omega : 0 < p),
      Nat.add_mul_div_left _ _ (by omega : 0 < p), Nat.div_eq_of_lt (by omega)]
    omega
  have h3 : k * (p * m) / p = k * m := by
    rw [show k * (p * m) = p * (k * m) from by ring,
      Nat.mul_div_cancel_left _ (by omega : 0 < p)]
  have h4 : p * m / p = m := Nat.mul_div_cancel_left _ (by omega : 0 < p)
  rw [h3, h4]
  omega

theorem deleOf_nil_of_lb (h : Hash) (sv : Saved) (o : Int) (k : Nat) (lo : Int)
    (htb : sv.trimBefore ≤ lo)
    (hbkt : ∀ b : Int, (h (Field.bucket sv.d sv.p b)).isSome = true → lo ≤ b) :
    deleOf h sv o k = [] := by
  rw [List.eq_nil_iff_forall_not_mem]
  intro b hb
  obtain ⟨⟨h1, h2⟩, h3⟩ := (mem_deleOf h sv o k b).mp hb
  have hlo := hbkt b h3
  have hmin : b < sv.trimBefore := lt_of_lt_of_le h2 (min_le_left _ _)
  omega

theorem evictTier_noop (h : Hash) (sv : Saved) (o : Int) (k : Nat) (lo : Int)
    (htb : sv.trimBefore ≤ lo)
    (hbkt : ∀ b : Int, (h (Field.bucket sv.d sv.p b)).isSome = true → lo ≤ b) :
    evictTier h sv o k = (h, aggOf h sv.d sv.p) := by
  have hd := deleOf_nil_of_lb h sv o k lo htb hbkt
  have hdec : decrOf h sv o k = 0 := by
    unfold decrOf
    rw [hd]
    rfl
  rw [evictTier_eq, hd, hdec]
  simp

theorem checkTier_hash_noop (x : Nat) (w : Int) (h : Hash) (t2 : Tier) (lo : Int)
    (htb : (savedOf t2 x).trimBefore ≤ lo)
    (hbkt : ∀ b : Int,
      (h (Field.bucket t2.duration (effPrec t2) b)).isSome = true → lo ≤ b) :
    (checkTier x w h t2).1 = h := by
  rcases checkTier_hash x w h t2 with he | he
  · exact he
  · rw [he, evictTier_noop h (savedOf t2 x) _ _ lo htb hbkt]

theorem checkTier_postEvict_noop (x : Nat) (w : Int) (h : Hash) (t2 : Tier) (lo : Int)
    (htb : (savedOf t2 x).trimBefore ≤ lo)
    (hbkt : ∀ b : Int,
      (h (Field.bucket t2.duration (effPrec t2) b)).isSome = true → lo ≤ b) :
    postEvictAgg h t2 x = aggOf h t2.duration (effPrec t2) := by
  unfold postEvictAgg
  rw [evictTier_noop h (savedOf t2 x) _ _ lo htb hbkt]
  rfl

theorem checkTiers_focal_frame (x : Nat) (w : Int) (d p : Nat) (lo : Int) :
    ∀ (l : List Tier) (h : Hash),
      (∀ t2 ∈ l, t2.duration = d → effPrec t2 = p →
        (savedOf t2 x).trimBefore ≤ lo) →
      (∀ b : Int, (h (Field.bucket d p b)).isSome = true → lo ≤ b) →
      ∀ g : Field, ownsCB d p g → (checkTiers x w h l).1 g = h g := by
  intro l
  induction l with
  | nil => intro h _ _ g _; rfl
  | cons t2 rest ih =>
    intro h htb hbkt g hg
    by_cases hslot : t2.duration = d ∧ effPrec t2 = p
    · have hnoop : (checkTier x w h t2).1 = h := by
        apply checkTier_hash_noop x w h t2 lo
          (htb t2 (List.mem_cons_self t2 rest) hslot.1 hslot.2)
        intro b hb
        apply hbkt b
        rw [← hslot.1, ← hslot.2]
        exact hb
      cases hct : checkTier x w h t2 with
      | mk h1 osv =>
        rw [hct] at hnoop
        cases osv with
        | none =>
          rw [checkTiers_cons_none x w h t2 rest h1 hct, hnoop]
        | some sv =>
          rw [checkTiers_cons_some x w h t2 rest h1 sv hct]
          show (checkTiers x w h1 rest).1 g = h g
          have hn2 : h1 = h := hnoop
          rw [hn2]
          exact ih h (fun t3 h3 => htb t3 (List.mem_cons_of_mem t2 h3)) hbkt g hg
    · have hfr : ∀ g2 : Field, ownsCB d p g2 → (checkTier x w h t2).1 g2 = h g2 := by
        intro g2 hg2
        apply checkTier_frame
        intro hc
        apply hslot
        rcases hg2 with e | ⟨b, e⟩ <;> rcases hc with e2 | ⟨b2, e2⟩ <;>
          subst e <;> cases e2 <;> exact ⟨rfl, rfl⟩
      cases hct : checkTier x w h t2 with
      | mk h1 osv =>
        have hfr2 := fun g2 hg2 => by
          have := hfr g2 hg2
          rw [hct] at this
          exact this
        cases osv with
        | none =>
          rw [checkTiers_cons_none x w h t2 rest h1 hct]
          exact hfr2 g hg
        | some sv =>
          rw [checkTiers_cons_some x w h t2 rest h1 sv hct]
          show (checkTiers x w h1 rest).1 g = h g
          have hfr3 : ∀ g2 : Field, ownsCB d p g2 → h1 g2 = h g2 := hfr2
          have hbkt1 : ∀ b : Int, (h1 (Field.bucket d p b)).isSome = true → lo ≤ b := by
            intro b hb
            rw [hfr3 (Field.bucket d p b) (Or.inr ⟨b, rfl⟩)] at hb
            exact hbkt b hb
          rw [ih h1 (fun t3 h3 => htb t3 (List.mem_cons_of_mem t2 h3)) hbkt1 g hg]
          exact hfr3 g hg

theorem updateTier_agg_ge (h : Hash) (sv : Saved) (d p : Nat) :
    aggOf h d p ≤ aggOf (updateTier 1 h sv) d p := by
  by_cases hslot : sv.d = d ∧ sv.p = p
  · obtain ⟨rfl, rfl⟩ := hslot
    have h1 : aggOf (updateTier 1 h sv) sv.d sv.p = aggOf h sv.d sv.p + 1 := by
      unfold aggOf
      rw [(updateTier_own 1 h sv).1]
      rfl
    omega
  · unfold aggOf
    rw [updateTier_frame 1 h sv (Field.cnt d p) (by
      intro e
      apply hslot
      cases e
      exact ⟨rfl, rfl⟩)]

theorem updateTiers_agg_ge :
    ∀ (svs : List Saved) (h : Hash) (d p : Nat),
      aggOf h d p ≤ aggOf (svs.foldl (updateTier 1) h) d p := by
  intro svs
  induction svs with
  | nil => intro h d p; exact le_refl _
  | cons sv rest ih =>
    intro h d p
    rw [List.foldl_cons]
    exact le_trans (updateTier_agg_ge h sv d p) (ih (updateTier 1 h sv) d p)

theorem updateTiers_agg_incr :
    ∀ (svs : List Saved) (h : Hash) (sv : Saved), sv ∈ svs →
      aggOf h sv.d sv.p + 1 ≤ aggOf (svs.foldl (updateTier 1) h) sv.d sv.p := by
  intro svs
  induction svs with
  | nil =>
    intro h sv hmem
    cases hmem
  | cons sv0 rest ih =>
    intro h sv hmem
    rw [List.foldl_cons]
    rcases List.mem_cons.mp hmem with rfl | hmemr
    · have h1 : aggOf (updateTier 1 h sv) sv.d sv.p = aggOf h sv.d sv.p + 1 := by
        unfold aggOf
        rw [(updateTier_own 1 h sv).1]
        rfl
      have h2 := updateTiers_agg_ge rest (updateTier 1 h sv) sv.d sv.p
      omega
    · have h1 := updateTier_agg_ge h sv0 sv.d sv.p
      have h2 := ih (updateTier 1 h sv0) sv hmemr
      omega

theorem updateTier_bucket_apply (w : Int) (h : Hash) (sv : Saved) (d p : Nat) (b : Int) :
    updateTier w h sv (Field.bucket d p b) =
      if sv.d = d ∧ sv.p = p ∧ sv.blockId = b
      then some (bucketOf h d p b + w)
      else h (Field.bucket d p b) := by
  by_cases hm : sv.d = d ∧ sv.p = p ∧ sv.blockId = b
  · obtain ⟨rfl, rfl, rfl⟩ := hm
    rw [if_pos ⟨rfl, rfl, rfl⟩]
    exact (updateTier_own w h sv).2.1
  · rw [if_neg hm]
    simp only [updateTier, hincrby]
    rw [hset_ne _ _ _ _ (by
        intro e
        cases e
        exact hm ⟨rfl, rfl, rfl⟩),
      hset_ne _ _ _ _ (by rintro ⟨⟩), hset_ne _ _ _ _ (by rintro ⟨⟩)]

theorem updateTiers_bucket_lb (d p : Nat) (lo : Int) :
    ∀ (svs : List Saved) (h : Hash),
      (∀ sv ∈ svs, sv.d = d → sv.p = p → lo ≤ sv.blockId) →
      (∀ b : Int, (h (Field.bucket d p b)).isSome = true → lo ≤ b) →
      ∀ b : Int, ((svs.foldl (updateTier 1) h) (Field.bucket d p b)).isSome = true →
        lo ≤ b := by
  intro svs
  induction svs with
  | nil => intro h _ hbkt b hb; exact hbkt b hb
  | cons sv0 rest ih =>
    intro h hblk hbkt b hb
    rw [List.foldl_cons] at hb
    refine ih (updateTier 1 h sv0)
      (fun sv2 h2 => hblk sv2 (List.mem_cons_of_mem sv0 h2)) ?_ b hb
    intro b2 hb2
    rw [updateTier_bucket_apply 1 h sv0 d p b2] at hb2
    by_cases hm : sv0.d = d ∧ sv0.p = p ∧ sv0.blockId = b2
    · obtain ⟨hd, hp, hbl⟩ := hm
      rw [← hbl]
      exact hblk sv0 (List.mem_cons_self sv0 rest) hd hp
    · rw [if_neg hm] at hb2
      exact hbkt b2 hb2

theorem overLimitCheck_result (tiers : List Tier) (now : Nat) (w : Int)
    (s : RStore) (r : Int) (s1 : RStore)
    (hok : overLimitCheck tiers now w s = Except.ok (r, s1)) : r = 0 ∨ r = 1 := by
  cases tiers with
  | nil => cases hok
  | cons t rest =>
    simp only [overLimitCheck] at hok
    cases hcz : checkTiers now w s.hash (t :: rest) with
    | mk h1 or1 =>
      rw [hcz] at hok
      cases or1 with
      | none =>
        simp only [Except.ok.injEq, Prod.mk.injEq] at hok
        omega
      | some svs =>
        simp only [Except.ok.injEq, Prod.mk.injEq] at hok
        omega

theorem c1_call_step (tiers : List Tier) (t : Tier) (ht : t ∈ tiers)
    (hwf : tiers.all wfTier = true) (hdvd : effPrec t ∣ t.duration) (k : Nat)
    (x : Nat) (hx1 : k * t.duration ≤ x) (hx2 : x < (k + 1) * t.duration)
    (h : Hash) (ttl : Option Nat) (m : Nat)
    (hbkt : ∀ b : Int, (h (Field.bucket t.duration (effPrec t) b)).isSome = true →
      ((k * t.duration / effPrec t : Nat) : Int) ≤ b)
    (hagg : (m : Int) ≤ aggOf h t.duration (effPrec t))
    (r : Int) (s1 : RStore)
    (hok : overLimitCheck tiers x 1 { hash := h, ttl := ttl } = Except.ok (r, s1)) :
    (r = 0 →
      (∀ b : Int, (s1.hash (Field.bucket t.duration (effPrec t) b)).isSome = true →
        ((k * t.duration / effPrec t : Nat) : Int) ≤ b) ∧
      ((m : Int) + 1 ≤ aggOf s1.hash t.duration (effPrec t))) ∧
    (t.threshold ≤ (m : Int) → r = 1) := by
  have hwft : wfTier t = true := List.all_eq_true.mp hwf t ht
  have hp1 : 1 ≤ effPrec t := effPrec_pos t hwft
  have hd1 : 1 ≤ t.duration := duration_pos t hwft
  have hwb := window_block_bounds t.duration (effPrec t) k x hp1 hdvd hd1 hx1 hx2
  have htb : ∀ t2 ∈ tiers, t2.duration = t.duration → effPrec t2 = effPrec t →
      (savedOf t2 x).trimBefore ≤ ((k * t.duration / effPrec t : Nat) : Int) := by
    intro t2 ht2 hdur hpre
    have hblocks : blocksOf t2 = t.duration / effPrec t := by
      rw [blocksOf_of_dvd t2 (by omega) (by rw [hpre, hdur]; exact hdvd) (by omega),
        hdur, hpre]
    show ((x / effPrec t2 : Nat) : Int) - (blocksOf t2 : Int) + 1 ≤ _
    rw [hblocks, hpre]
    omega
  have hblk : ∀ sv ∈ tiers.map (fun t2 => savedOf t2 x),
      sv.d = t.duration → sv.p = effPrec t →
      ((k * t.duration / effPrec t : Nat) : Int) ≤ sv.blockId := by
    intro sv hsv hdur hpre
    obtain ⟨t2, ht2, rfl⟩ := List.mem_map.mp hsv
    show ((k * t.duration / effPrec t : Nat) : Int) ≤ ((x / effPrec t2 : Nat) : Int)
    have hpre2 : effPrec t2 = effPrec t := hpre
    rw [hpre2]
    omega
  have hfocal := checkTiers_focal_frame x 1 t.duration (effPrec t)
    ((k * t.duration / effPrec t : Nat) : Int) tiers h htb hbkt
  constructor
  · intro hr0
    subst hr0
    obtain ⟨h1, svs, hcz, hs1, hsvs⟩ :=
      overLimitCheck_allowed_state tiers x 1 { hash := h, ttl := ttl } s1 hok
    have hfocal2 : ∀ g : Field, ownsCB t.duration (effPrec t) g → h1 g = h g := by
      intro g hg
      have hfg := hfocal g hg
      rw [hcz] at hfg
      exact hfg
    have hbkt1 : ∀ b : Int,
        (h1 (Field.bucket t.duration (effPrec t) b)).isSome = true →
        ((k * t.duration / effPrec t : Nat) : Int) ≤ b := by
      intro b hb
      rw [hfocal2 (Field.bucket t.duration (effPrec t) b) (Or.inr ⟨b, rfl⟩)] at hb
      exact hbkt b hb
    have hagg1 : (m : Int) ≤ aggOf h1 t.duration (effPrec t) := by
      have hc := hfocal2 (Field.cnt t.duration (effPrec t)) (Or.inl rfl)
      unfold aggOf
      rw [hc]
      exact hagg
    subst hsvs
    constructor
    · intro b hb
      rw [hs1] at hb
      exact updateTiers_bucket_lb t.duration (effPrec t) _ _ h1 hblk hbkt1 b hb
    · rw [hs1]
      have hmem : savedOf t x ∈ tiers.map (fun t2 => savedOf t2 x) :=
        List.mem_map_of_mem _ ht
      have := updateTiers_agg_incr (tiers.map (fun t2 => savedOf t2 x)) h1
        (savedOf t x) hmem
      have hagg2 : aggOf h1 t.duration (effPrec t) + 1 ≤
          aggOf ((tiers.map (fun t2 => savedOf t2 x)).foldl (updateTier 1) h1)
            t.duration (effPrec t) := this
      omega
  · intro hthr
    rcases overLimitCheck_result tiers x 1 { hash := h, ttl := ttl } r s1 hok
      with hr0 | hr1
    · exfalso
      subst hr0
      obtain ⟨h1, svs, hcz, -, -⟩ :=
        overLimitCheck_allowed_state tiers x 1 { hash := h, ttl := ttl } s1 hok
      obtain ⟨l1, l2, rfl⟩ := List.append_of_mem ht
      cases hcp : checkTiers x 1 h l1 with
      | mk hp o1 =>
        cases o1 with
        | none =>
          rw [checkTiers_append_none x 1 l1 (t :: l2) h (by rw [hcp])] at hcz
          rw [hcp] at hcz
          simp at hcz
        | some svs1 =>
          rw [checkTiers_append_some x 1 l1 (t :: l2) h hp svs1 hcp] at hcz
          have hinner : ∃ svs2, checkTiers x 1 hp (t :: l2) =
              ((checkTiers x 1 hp (t :: l2)).1, some svs2) := by
            cases hcc : (checkTiers x 1 hp (t :: l2)).2 with
            | none =>
              rw [show ((checkTiers x 1 hp (t :: l2)).1,
                  Option.map (fun svs2 => svs1 ++ svs2)
                    (checkTiers x 1 hp (t :: l2)).2) =
                  ((checkTiers x 1 hp (t :: l2)).1, none) from by rw [hcc]; rfl] at hcz
              simp at hcz
            | some svs2 =>
              exact ⟨svs2, by rw [← hcc]⟩
          obtain ⟨svs2, hcc⟩ := hinner
          have hfr1 : ∀ g, ownsCB t.duration (effPrec t) g → hp g = h g := by
            intro g hg
            have := checkTiers_focal_frame x 1 t.duration (effPrec t)
              ((k * t.duration / effPrec t : Nat) : Int) l1 h
              (fun t2 h2 => htb t2 (by simp [h2]))
              hbkt g hg
            rw [hcp] at this
            exact this
          have hbktp : ∀ b : Int,
              (hp (Field.bucket t.duration (effPrec t) b)).isSome = true →
              ((k * t.duration / effPrec t : Nat) : Int) ≤ b := by
            intro b hb
            rw [hfr1 (Field.bucket t.duration (effPrec t) b) (Or.inr ⟨b, rfl⟩)] at hb
            exact hbkt b hb
          have hcur : postEvictAgg hp t x = aggOf hp t.duration (effPrec t) :=
            checkTier_postEvict_noop x 1 hp t _
              (htb t ht rfl rfl) hbktp
          have haggp : (m : Int) ≤ aggOf hp t.duration (effPrec t) := by
            have hc := hfr1 (Field.cnt t.duration (effPrec t)) (Or.inl rfl)
            unfold aggOf
            rw [hc]
            exact hagg
          have hden : deniesAt x 1 hp t := by
            by_cases hcd : clockDeny hp t x
            · exact Or.inl hcd
            · refine Or.inr ⟨hcd, ?_⟩
              rw [hcur]
              omega
          have hnone : (checkTier x 1 hp t).2 = none :=
            (checkTier_none_iff x 1 hp t).mpr hden
          cases hct : checkTier x 1 hp t with
          | mk hx ox =>
            rw [hct] at hnone
            have hoxn : ox = none := hnone
            subst hoxn
            rw [checkTiers_cons_none x 1 hp t l2 hx hct] at hcc
            simp at hcc
    · exact hr1

theorem c1_aux (tiers : List Tier) (t : Tier) (ht : t ∈ tiers)
    (hwf : tiers.all wfTier = true) (hdvd : effPrec t ∣ t.duration)
    (k : Nat) (n : Nat) (hthr : t.threshold = (n : Int)) :
    ∀ (ts : List Nat) (m : Nat) (s : RStore) (rs : List Int) (sf : RStore),
      m + ts.length = n + 1 → m ≤ n →
      (∀ x ∈ ts, k * t.duration ≤ x ∧ x < (k + 1) * t.duration) →
      (∀ b : Int, (s.hash (Field.bucket t.duration (effPrec t) b)).isSome = true →
        ((k * t.duration / effPrec t : Nat) : Int) ≤ b) →
      ((m : Int) ≤ aggOf s.hash t.duration (effPrec t)) →
      runSeq tiers 1 ts s = Except.ok (rs, sf) →
      rs.take (n - m) = List.replicate (n - m) 0 →
      rs = List.replicate (n - m) 0 ++ [1] := by
  intro ts
  induction ts with
  | nil =>
    intro m s rs sf hlen hm hwin hbkt hagg hrun htake
    exfalso
    simp only [List.length_nil] at hlen
    omega
  | cons x ts2 ih =>
    intro m s rs sf hlen hm hwin hbkt hagg hrun htake
    cases ho : overLimitCheck tiers x 1 s with
    | error e =>
      rw [show runSeq tiers 1 (x :: ts2) s = Except.error e from by
        simp only [runSeq, ho]] at hrun
      cases hrun
    | ok pr =>
      obtain ⟨r, s1⟩ := pr
      cases hrs : runSeq tiers 1 ts2 s1 with
      | error e =>
        rw [show runSeq tiers 1 (x :: ts2) s = Except.error e from by
          simp only [runSeq, ho, hrs]] at hrun
        cases hrun
      | ok pr2 =>
        obtain ⟨rs2, sf2⟩ := pr2
        rw [show runSeq tiers 1 (x :: ts2) s = Except.ok (r :: rs2, sf2) from by
          simp only [runSeq, ho, hrs]] at hrun
        simp only [Except.ok.injEq, Prod.mk.injEq] at hrun
        obtain ⟨hrsr, -⟩ := hrun
        have hwinx := hwin x (List.mem_cons_self x ts2)
        have hstep := c1_call_step tiers t ht hwf hdvd k x hwinx.1 hwinx.2
          s.hash s.ttl m hbkt hagg r s1 ho
        cases ts2 with
        | nil =>
          have hmn : m = n := by
            simp only [List.length_cons, List.length_nil] at hlen
            omega
          have hr1 : r = 1 := hstep.2 (by rw [hthr, hmn])
          have hrs2 : rs2 = [] := by
            simp only [runSeq, Except.ok.injEq, Prod.mk.injEq] at hrs
            exact hrs.1.symm
          rw [← hrsr, hrs2, hr1, hmn]
          simp
        | cons y ts3 =>
          have hmlt : m < n := by
            simp only [List.length_cons] at hlen
            omega
          have hnm : n - m = (n - (m + 1)) + 1 := by omega
          rw [← hrsr, hnm] at htake
          simp only [List.take_succ_cons, List.replicate_succ, List.cons.injEq] at htake
          obtain ⟨hr0, htake2⟩ := htake
          obtain ⟨hbkt1, hagg1⟩ := hstep.1 hr0
          have hagg1n : ((m + 1 : Nat) : Int) ≤ aggOf s1.hash t.duration (effPrec t) := by
            push_cast
            exact hagg1
          have hih := ih (m + 1) s1 rs2 sf2
            (by simp only [List.length_cons] at hlen ⊢; omega) (by omega)
            (fun z hz => hwin z (List.mem_cons_of_mem x hz)) hbkt1 hagg1n hrs htake2
          rw [← hrsr, hr0, hnm, hih]
          simp [List.replicate_succ]

/-- Counterexample for C1: for tier `[10, 1]` (threshold 1, default
precision) a weight-1 call at t=9 is allowed, and the next weight-1 call at
t=10 — one second later, well inside one 10-second window, and the call
that would make the aggregate exceed the threshold — is ALSO allowed
(result 0), because crossing the 10-second-aligned bucket boundary evicts
the first call's bucket.  The claim demands that this second call be
denied (results `[0, 1]`). -/
theorem c1_threshold_window_cex :
    runSeqResults [{ duration := 10, threshold := 1, precision := none }] 1 [9, 10] =
      some [0, 0] ∧
    runSeqResults [{ duration := 10, threshold := 1, precision := none }] 1 [9, 10] ≠
      some [0, 1] := by
  constructor
  · rfl
  · decide

/-- Claim C1 as amended: restrict "one `duration` window" to one aligned
window `[k*duration, (k+1)*duration)` and the tier's effective precision to
divide its duration (true in particular for the default precision).  Then
for a fresh key, any focal tier with threshold n in the list, and n+1 calls
of weight 1 at times inside one aligned window: if the first n calls were
allowed, the (n+1)-th call — the first that would push the focal tier's
aggregate past its threshold — is denied, so the results are exactly n
allows followed by one deny. -/
theorem c1_threshold_window_amended (tiers : List Tier) (t : Tier) (ht : t ∈ tiers)
    (hwf : tiers.all wfTier = true) (hdvd : effPrec t ∣ t.duration)
    (n : Nat) (hthr : t.threshold = (n : Int)) (k : Nat)
    (times : List Nat) (hlen : times.length = n + 1)
    (hwin : ∀ x ∈ times, k * t.duration ≤ x ∧ x < (k + 1) * t.duration)
    (results : List Int)
    (hrun : runSeqResults tiers 1 times = some results)
    (htake : results.take n = List.replicate n 0) :
    results = List.replicate n 0 ++ [1] := by
  unfold runSeqResults at hrun
  cases hr : runSeq tiers 1 times { hash := hempty, ttl := none } with
  | error e =>
    rw [hr] at hrun
    cases hrun
  | ok pr =>
    obtain ⟨rs, sf⟩ := pr
    rw [hr] at hrun
    simp only [Option.some.injEq] at hrun
    subst hrun
    have haux := c1_aux tiers t ht hwf hdvd k n hthr times 0
      { hash := hempty, ttl := none } rs sf
      (by omega) (by omega) hwin
      (fun b hb => absurd hb (by simp [hempty]))
      (by simp [aggOf, hempty]) hr
      (by simpa using htake)
    simpa using haux

/-- Witness for the amended C1: tier `[10, 2]`, three calls at t=10, 11, 12
inside the aligned window `[10, 20)`: allowed, allowed, denied. -/
theorem c1_threshold_window_amended_wit :
    ([0, 0, 1] : List Int) = List.replicate 2 0 ++ [1] :=
  c1_threshold_window_amended
    [{ duration := 10, threshold := 2, precision := none }]
    { duration := 10, threshold := 2, precision := none }
    (List.mem_singleton.mpr rfl) (by decide) (by decide) 2 (by decide) 1
    [10, 11, 12] (by decide) (by decide) [0, 0, 1] rfl (by decide)

end Guardini
